import Mathlib

/-!
# ppswatch: signal acquisition and quality statistics

A shallow embedding of `ppswatch.c` (pps-tools): the configuration of a PPS
source (`find_source`), the per-pulse processing (`fetch_source`), the final
report (`print_stats`) and the acquisition loop of `main`.

Conventions of the embedding.

* The process-wide statistic variables (`total`, `overflows`, `max_unsync`,
  `max_divergence`, `mean`, `M2`, `curr_unsync`) are the fields of `Stats`,
  passed explicitly from call to call.
* C `int` and `long` values are integers.  The narrowing assignment
  `max_divergence = div` (a `long` stored in an `int`) is modelled by
  `int_of_long`.  Increments (`total++`, `tv_sec++`, ...) are taken on the
  integers: C leaves a signed overflow undefined, so the embedding describes
  runs in which the counters stay below `2^31`.
* The `double` variables `mean` and `M2` hold finite binary64 values, which are
  rationals.  Each operation of lines 139-142 is rounded once, to the nearest
  binary64 value with ties to even (`fl64`): no fused multiply-add and no
  extended precision, as on x86-64.  The conversion of the `int` `total` is
  exact.  Magnitudes from `2^1024` on, which would round to an infinity, are
  out of reach while `total` is in the range of `int`.  The same lines with
  the rounding replaced by the identity are their reading over the rationals.
* Bit masks (`mode`, `avail_mode`, `params.mode`) are natural numbers with the
  bitwise operations of `Nat`.
* The header `timepps.h` is not part of the sources: its flag constants are the
  fields of `Timepps`, a parameter of every function that uses them.
* The calls into the kernel (`open`, `time_pps_create`, `time_pps_getcap`,
  `time_pps_getparams`, `time_pps_setparams`, `time_pps_fetch`) are described by
  their outcomes (`SourceEnv`, `FetchOutcome`).
-/

namespace Ppswatch

/-! ## Data model -/

/-- The flag constants of `timepps.h` used by `ppswatch.c`. -/
structure Timepps where
  PPS_CAPTUREASSERT : Nat
  PPS_CAPTURECLEAR : Nat
  PPS_CANWAIT : Nat
deriving DecidableEq, Repr

/-- The value of `errno` after an interrupted system call (Linux `errno.h`). -/
def EINTR : Int := 4

/-- The value of `errno` after a timed out wait (Linux `errno.h`). -/
def ETIMEDOUT : Int := 110

/-- The C `struct timespec`. -/
structure timespec where
  tv_sec : Int
  tv_nsec : Int
deriving DecidableEq, Repr

/-- The sample filled in by `time_pps_fetch`: both edges, each with its
sequence counter. -/
structure pps_info_t where
  assert_sequence : Nat
  clear_sequence : Nat
  assert_timestamp : timespec
  clear_timestamp : timespec
deriving DecidableEq, Repr

/-- The parameters of a PPS source (`pps_params_t` of `timepps.h`). -/
structure pps_params_t where
  api_version : Int
  mode : Nat
  assert_offset : timespec
  clear_offset : timespec
deriving DecidableEq, Repr

/-- The statistic variables of `ppswatch.c` (lines 34-40 and 94). -/
structure Stats where
  total : Int
  overflows : Int
  max_unsync : Int
  max_divergence : Int
  mean : ℚ
  M2 : ℚ
  curr_unsync : Int
deriving DecidableEq

/-- The initial values of the statistic variables. -/
def Stats.init : Stats :=
  { total := 0, overflows := 0, max_unsync := 0, max_divergence := 0,
    mean := 0, M2 := 0, curr_unsync := 0 }

/-- The macro `NSEC_PER_SEC` (line 96). -/
def NSEC_PER_SEC : Int := 1000000000

/-- The value an `int` receives from a `long` (two's complement, 32 bits). -/
def int_of_long (x : Int) : Int := (x + 2 ^ 31) % 2 ^ 32 - 2 ^ 31

/-! ## fetch_source -/

/-- Lines 132-135 of `fetch_source`: a timestamp past the half second is
rewritten as a negative offset from the next second. -/
def normalize (ts : timespec) : timespec :=
  if ts.tv_nsec > NSEC_PER_SEC / 2 then
    { tv_sec := ts.tv_sec + 1, tv_nsec := ts.tv_nsec - NSEC_PER_SEC }
  else ts

/-! ### Double arithmetic -/

/-- The loop of `ilog2`, on a bound of the number of halvings. -/
def ilog2_aux : Nat → Nat → Nat
  | 0, _ => 0
  | fuel + 1, n => if n < 2 then 0 else ilog2_aux fuel (n / 2) + 1

/-- The position of the leading bit of `n`: the largest `k` with `2^k ≤ n`,
for `n > 0`. -/
def ilog2 (n : Nat) : Nat := ilog2_aux n n

/-- The power `2^e` of an integer exponent, as a rational. -/
def pow2 (e : Int) : ℚ :=
  if 0 ≤ e then ((2 ^ e.toNat : Nat) : ℚ) else 1 / ((2 ^ (-e).toNat : Nat) : ℚ)

/-- The integer nearest to `y`, the even one of the two when `y` lies half way. -/
def round_even (y : ℚ) : Int :=
  if y - (⌊y⌋ : ℚ) < 1 / 2 then ⌊y⌋
  else if 1 / 2 < y - (⌊y⌋ : ℚ) then ⌊y⌋ + 1
  else if ⌊y⌋ % 2 = 0 then ⌊y⌋ else ⌊y⌋ + 1

/-- The binary exponent of `x ≠ 0`: the `e` with `2^e ≤ |x| < 2^(e+1)`. -/
def binade (x : ℚ) : Int :=
  if pow2 ((ilog2 x.num.natAbs : Int) - (ilog2 x.den : Int)) ≤ |x| then
    (ilog2 x.num.natAbs : Int) - (ilog2 x.den : Int)
  else (ilog2 x.num.natAbs : Int) - (ilog2 x.den : Int) - 1

/-- The binary64 value nearest to `x`, ties to even: a multiple of `2^(e-52)`
where `e` is the binary exponent of `x`, not below the least normal exponent
`-1022` (below it the values are the subnormal ones, multiples of `2^-1074`). -/
def fl64 (x : ℚ) : ℚ :=
  if x = 0 then 0
  else (round_even (x / pow2 (max (binade x) (-1022) - 52)) : ℚ)
        * pow2 (max (binade x) (-1022) - 52)

/-- Lines 139-142 of `fetch_source`, the new `mean` and `M2`, every operation
and the conversion of `div` being rounded by `fl`: `fl64` for the program, the
identity for the reading over the rationals.  The divisor `total`, just
incremented, is at least `1` in every run from the initial state. -/
def welford (fl : ℚ → ℚ) (total : Int) (mean M2 : ℚ) (div : Int) : ℚ × ℚ :=
  let delta : ℚ := fl (fl (div : ℚ) - mean)
  let mean : ℚ := fl (mean + fl (delta / (total : ℚ)))
  let delta2 : ℚ := fl (fl (div : ℚ) - mean)
  let M2 : ℚ := fl (M2 + fl (delta * delta2))
  (mean, M2)

/-- The pair `(mean, M2)` after lines 137 and 139-142 ran on each offset of a
list, from the count `total` and the pair `s`. -/
def welford_run (fl : ℚ → ℚ) : Int → ℚ × ℚ → List Int → ℚ × ℚ
  | _, s, [] => s
  | total, s, x :: xs =>
    welford_run fl (total + 1) (welford fl (total + 1) s.1 s.2 x) xs

/-- Lines 137-156 of `fetch_source`: the update of the statistic variables by
one offset `tv_nsec`.  The second component tells whether the `printf` of line
148 was executed. -/
def tally (margin : Int) (st : Stats) (tv_nsec : Int) : Stats × Bool :=
  let total := st.total + 1
  let div := tv_nsec
  let mean : ℚ := (welford fl64 total st.mean st.M2 div).1
  let M2 : ℚ := (welford fl64 total st.mean st.M2 div).2
  let div := if div < 0 then -div else div
  let max_divergence :=
    if st.max_divergence < div then int_of_long div else st.max_divergence
  if div ≥ margin then
    ({ total := total, overflows := st.overflows + 1, max_unsync := st.max_unsync,
       max_divergence := max_divergence, mean := mean, M2 := M2,
       curr_unsync := st.curr_unsync + 1 }, true)
  else
    ({ total := total, overflows := st.overflows,
       max_unsync := if st.max_unsync < st.curr_unsync then st.curr_unsync
                     else st.max_unsync,
       max_divergence := max_divergence, mean := mean, M2 := M2,
       curr_unsync := 0 }, false)

/-- What a call of `time_pps_fetch` leaves behind: its return value, `errno`
and the sample buffer. -/
structure FetchOutcome where
  ret : Int
  errno : Int
  infobuf : pps_info_t
deriving DecidableEq, Repr

/-- The line printed for an event at line 148: timestamp, sequence, offset. -/
structure OverflowLine where
  timestamp : Int
  sequence : Nat
  offset : Int
deriving DecidableEq, Repr

/-- The effects of one call of `fetch_source`: its return value, the statistic
variables, `errno` as `time_pps_fetch` left it, the line printed at line 148,
the return value shown in the diagnostic of line 120, and whether `sleep(1)`
ran before the fetch (line 111). -/
structure FetchResult where
  ret : Int
  stats : Stats
  errno : Int
  line : Option OverflowLine
  diagnostic : Option Int
  slept : Bool
deriving DecidableEq

/-- Lines 124-130 of `fetch_source`: the edge selected by `mode`. -/
def select_edge (K : Timepps) (mode : Nat) (infobuf : pps_info_t) : timespec × Nat :=
  if mode &&& K.PPS_CAPTUREASSERT ≠ 0 then
    (infobuf.assert_timestamp, infobuf.assert_sequence)
  else if mode &&& K.PPS_CAPTURECLEAR ≠ 0 then
    (infobuf.clear_timestamp, infobuf.clear_sequence)
  else
    ({ tv_sec := 0, tv_nsec := 0 }, 0)

/-- The function `fetch_source` (lines 97-159), on the outcome `f` of its call
of `time_pps_fetch`. -/
def fetch_source (K : Timepps) (mode : Nat) (margin : Int) (st : Stats)
    (avail_mode : Nat) (f : FetchOutcome) : FetchResult :=
  let slept := decide (avail_mode &&& K.PPS_CANWAIT = 0)
  if f.ret < 0 then
    if f.errno = EINTR then
      { ret := -1, stats := st, errno := f.errno, line := none,
        diagnostic := none, slept := slept }
    else
      { ret := -1, stats := st, errno := f.errno, line := none,
        diagnostic := some f.ret, slept := slept }
  else
    let e := select_edge K mode f.infobuf
    let ts := normalize e.1
    let r := tally margin st ts.tv_nsec
    { ret := 0, stats := r.1, errno := f.errno,
      line := if r.2 then
                some { timestamp := ts.tv_sec, sequence := e.2, offset := ts.tv_nsec }
              else none,
      diagnostic := none, slept := slept }

/-- The statistic variables after the offsets `xs` went through lines 137-156,
one after the other, starting from `st`. -/
def feed (margin : Int) (st : Stats) (xs : List Int) : Stats :=
  xs.foldl (fun s x => (tally margin s x).1) st

/-- The statistic variables after one call of `fetch_source` for each outcome
of `fs`, in order, starting from `st`. -/
def run (K : Timepps) (mode : Nat) (margin : Int) (avail_mode : Nat) (st : Stats)
    (fs : List FetchOutcome) : Stats :=
  fs.foldl (fun s f => (fetch_source K mode margin s avail_mode f).stats) st

/-- The offset `fetch_source` derives from a successful fetch: the nanoseconds
of the selected edge after normalisation. -/
def offset_of (K : Timepps) (mode : Nat) (f : FetchOutcome) : Int :=
  (normalize (select_edge K mode f.infobuf).1).tv_nsec

/-- Whether the fetch succeeded (`ret < 0` fails at line 115). -/
def FetchOutcome.ok (f : FetchOutcome) : Bool := decide (0 ≤ f.ret)

/-! ## print_stats -/

/-- A division of two `double` values: the quotient, or `none` when the divisor
is zero (the IEEE result is then a NaN or an infinity, not a number).  The
quotient is the exact one, which the program rounds to binary64 (`fl64`). -/
def ddiv (a b : ℚ) : Option ℚ := if b = 0 then none else some (a / b)

/-- What `print_stats` prints, line by line; `variance` is the argument of
`sqrt` at line 242 and `divisors` lists the divisors of the divisions that were
evaluated, in order. -/
structure Report where
  total : Int
  overflows : Option (Int × Option ℚ)
  max_unsync : Option Int
  max_divergence : Int
  mean : ℚ
  variance : Option ℚ
  divisors : List Int
deriving DecidableEq

/-- The function `print_stats` (lines 233-243). -/
def print_stats (margin : Int) (st : Stats) : Report :=
  { total := st.total,
    overflows :=
      if margin ≠ 0 then
        some (st.overflows, ddiv (100 * (st.overflows : ℚ)) (st.total : ℚ))
      else none,
    max_unsync := if margin ≠ 0 then some st.max_unsync else none,
    max_divergence := st.max_divergence,
    mean := st.mean,
    variance := ddiv st.M2 (st.total : ℚ),
    divisors := (if margin ≠ 0 then [st.total] else []) ++ [st.total] }

/-! ## The acquisition loop of main -/

/-- Where the loop of `main` (lines 273-281) stands after a finite number of
fetches: still looping, or left with the value `main` returns. -/
inductive LoopState where
  | running (st : Stats)
  | exited (ret : Int) (st : Stats)
deriving DecidableEq

/-- The loop of `main` (lines 273-281) over the outcomes of its successive
fetches. -/
def main_loop (K : Timepps) (mode : Nat) (margin : Int) (avail_mode : Nat) :
    Stats → List FetchOutcome → LoopState
  | st, [] => LoopState.running st
  | st, f :: fs =>
    let r := fetch_source K mode margin st avail_mode f
    if r.ret < 0 ∧ r.errno = EINTR then LoopState.exited 0 r.stats
    else if r.ret < 0 ∧ r.errno ≠ ETIMEDOUT then LoopState.exited r.ret r.stats
    else main_loop K mode margin avail_mode r.stats fs

/-! ## find_source -/

/-- The outcomes of the calls `find_source` makes: the return values of `open`,
`time_pps_create`, `time_pps_getcap` (with the capabilities it stores),
`time_pps_getparams` (with the current parameters it stores) and
`time_pps_setparams` (which may depend on the parameters requested). -/
structure SourceEnv where
  open_ret : Int
  create_ret : Int
  getcap_ret : Int
  getcap_mode : Nat
  getparams_ret : Int
  getparams : pps_params_t
  setparams_ret : pps_params_t → Int

/-- The effects of `find_source`: its return value, the capabilities left in
`*avail_mode` when they were obtained, and the parameters passed to
`time_pps_setparams` when it was called. -/
structure FindResult where
  ret : Int
  avail_mode : Option Nat
  requested : Option pps_params_t
deriving DecidableEq

/-- The function `find_source` (lines 42-92). -/
def find_source (mode : Nat) (env : SourceEnv) : FindResult :=
  if env.open_ret < 0 then
    { ret := env.open_ret, avail_mode := none, requested := none }
  else if env.create_ret < 0 then
    { ret := -1, avail_mode := none, requested := none }
  else if env.getcap_ret < 0 then
    { ret := -1, avail_mode := none, requested := none }
  else if env.getcap_mode &&& mode = mode then
    if env.getparams_ret < 0 then
      { ret := -1, avail_mode := some env.getcap_mode, requested := none }
    else
      let params : pps_params_t :=
        { env.getparams with mode := env.getparams.mode ||| mode }
      if env.setparams_ret params < 0 then
        { ret := -1, avail_mode := some env.getcap_mode, requested := some params }
      else
        { ret := 0, avail_mode := some env.getcap_mode, requested := some params }
  else
    { ret := -1, avail_mode := some env.getcap_mode, requested := none }

/-! ## Reference notions the statistics are compared with -/

/-- The largest absolute value of a list of offsets, `0` for the empty list. -/
def max_abs : List Int → Int
  | [] => 0
  | x :: xs => max |x| (max_abs xs)

/-- The sum of a list of offsets, as a rational. -/
def sumQ (xs : List Int) : ℚ := (xs.map (fun x => (x : ℚ))).sum

/-- The sum of the squared deviations of the offsets `xs` from `m`. -/
def sq_dev (m : ℚ) (xs : List Int) : ℚ := (xs.map (fun x => ((x : ℚ) - m) ^ 2)).sum

/-- The length of the run of over-margin events a classification starts with. -/
def leading_run : List Bool → Nat
  | true :: bs => leading_run bs + 1
  | _ => 0

/-- The length of the longest contiguous run of over-margin events: the longest
of the runs starting at each position. -/
def longest_run : List Bool → Nat
  | [] => 0
  | b :: bs => max (leading_run (b :: bs)) (longest_run bs)

/-- The classification of an offset against the margin: over margin when its
absolute value reaches the margin. -/
def over_margin (margin : Int) (x : Int) : Bool := decide (margin ≤ |x|)

/-- Whether line 148 printed, for each offset of a run of lines 137-156 from
`st`, in order. -/
def feed_lines (margin : Int) : Stats → List Int → List Bool
  | _, [] => []
  | st, x :: xs => (tally margin st x).2 :: feed_lines margin (tally margin st x).1 xs

/-- The line printed, if any, by each call of `fetch_source` of a run from
`st`, in order. -/
def run_lines (K : Timepps) (mode : Nat) (margin : Int) (avail_mode : Nat) :
    Stats → List FetchOutcome → List (Option OverflowLine)
  | _, [] => []
  | st, f :: fs =>
    (fetch_source K mode margin st avail_mode f).line
      :: run_lines K mode margin avail_mode
          (fetch_source K mode margin st avail_mode f).stats fs

/-- An event: the fetch succeeded. -/
def is_event (f : FetchOutcome) : Prop := 0 ≤ f.ret

/-- A timeout: the fetch failed with `errno == ETIMEDOUT`. -/
def is_timeout (f : FetchOutcome) : Prop := f.ret < 0 ∧ f.errno = ETIMEDOUT

/-- An interrupted fetch: it failed with `errno == EINTR`. -/
def is_interrupted (f : FetchOutcome) : Prop := f.ret < 0 ∧ f.errno = EINTR

/-- A fetch that failed with any other error. -/
def is_other_error (f : FetchOutcome) : Prop :=
  f.ret < 0 ∧ f.errno ≠ EINTR ∧ f.errno ≠ ETIMEDOUT

instance (f : FetchOutcome) : Decidable (is_event f) := by
  unfold is_event; infer_instance

instance (f : FetchOutcome) : Decidable (is_timeout f) := by
  unfold is_timeout; infer_instance

instance (f : FetchOutcome) : Decidable (is_interrupted f) := by
  unfold is_interrupted; infer_instance

instance (f : FetchOutcome) : Decidable (is_other_error f) := by
  unfold is_other_error; infer_instance

/-- The coherence of the counters: `0 ≤ curr_unsync ≤ overflows ≤ total` and
`0 ≤ max_unsync ≤ overflows`. -/
def coherent (st : Stats) : Prop :=
  0 ≤ st.curr_unsync ∧ st.curr_unsync ≤ st.overflows ∧ st.overflows ≤ st.total ∧
  0 ≤ st.max_unsync ∧ st.max_unsync ≤ st.overflows

instance (st : Stats) : Decidable (coherent st) := by
  unfold coherent; infer_instance

/-! ## Sample inputs -/

/-- The flag values of the Linux PPS API (`PPS_CAPTUREASSERT = 0x01`,
`PPS_CAPTURECLEAR = 0x02`, `PPS_CANWAIT = 0x100`). -/
def linux_pps : Timepps :=
  { PPS_CAPTUREASSERT := 1, PPS_CAPTURECLEAR := 2, PPS_CANWAIT := 256 }

/-- A successful fetch whose two edges carry the timestamp `(sec, nsec)` and
the sequence number `seq`. -/
def pulse (sec nsec : Int) (seq : Nat) : FetchOutcome :=
  { ret := 0, errno := 0,
    infobuf := { assert_sequence := seq, clear_sequence := seq,
                 assert_timestamp := { tv_sec := sec, tv_nsec := nsec },
                 clear_timestamp := { tv_sec := sec, tv_nsec := nsec } } }

/-- A failed fetch with the given `errno`; the buffer holds nothing of use. -/
def failure (errno : Int) : FetchOutcome :=
  { ret := -1, errno := errno,
    infobuf := { assert_sequence := 0, clear_sequence := 0,
                 assert_timestamp := { tv_sec := 0, tv_nsec := 0 },
                 clear_timestamp := { tv_sec := 0, tv_nsec := 0 } } }

/-! ## Theorems -/

/-! ### Projections of one update -/

theorem tally_total (margin : Int) (st : Stats) (x : Int) :
    (tally margin st x).1.total = st.total + 1 := by
  unfold tally
  dsimp only
  split_ifs <;> rfl

theorem tally_welford (margin : Int) (st : Stats) (x : Int) :
    ((tally margin st x).1.mean, (tally margin st x).1.M2)
      = welford fl64 (st.total + 1) st.mean st.M2 x := by
  unfold tally
  dsimp only
  split_ifs <;> rfl

theorem feed_nil (margin : Int) (st : Stats) : feed margin st [] = st := rfl

theorem feed_cons (margin : Int) (st : Stats) (x : Int) (xs : List Int) :
    feed margin st (x :: xs) = feed margin (tally margin st x).1 xs := rfl

theorem feed_snoc (margin : Int) (st : Stats) (xs : List Int) (x : Int) :
    feed margin st (xs ++ [x]) = (tally margin (feed margin st xs) x).1 := by
  unfold feed
  rw [List.foldl_append]
  rfl

theorem sumQ_snoc (xs : List Int) (x : Int) : sumQ (xs ++ [x]) = sumQ xs + (x : ℚ) := by
  unfold sumQ
  simp

theorem sq_dev_snoc (m : ℚ) (xs : List Int) (x : Int) :
    sq_dev m (xs ++ [x]) = sq_dev m xs + ((x : ℚ) - m) ^ 2 := by
  unfold sq_dev
  simp

/-- The squared deviations from `m`, expanded around `0`. -/
theorem sq_dev_expand (m : ℚ) (xs : List Int) :
    sq_dev m xs = sq_dev 0 xs - 2 * m * sumQ xs + (xs.length : ℚ) * m ^ 2 := by
  induction xs using List.reverseRecOn with
  | nil => simp [sq_dev, sumQ]
  | append_singleton xs x ih =>
    rw [sq_dev_snoc, sq_dev_snoc, sumQ_snoc, ih, List.length_append]
    simp only [List.length_singleton]
    push_cast
    ring

/-! ### Rounding to binary64 -/

theorem ilog2_aux_spec : ∀ (fuel n : Nat), n ≤ fuel → n ≠ 0 →
    2 ^ ilog2_aux fuel n ≤ n ∧ n < 2 ^ (ilog2_aux fuel n + 1) := by
  intro fuel
  induction fuel with
  | zero =>
    intro n h0 h1
    omega
  | succ fuel ih =>
    intro n hle hne
    unfold ilog2_aux
    by_cases h2 : n < 2
    · rw [if_pos h2]
      have : n = 1 := by omega
      subst this
      exact ⟨by norm_num, by norm_num⟩
    · rw [if_neg h2]
      obtain ⟨ha, hb⟩ := ih (n / 2) (by omega) (by omega)
      rw [pow_succ, pow_succ]
      constructor <;> omega

theorem ilog2_spec (n : Nat) (hne : n ≠ 0) :
    2 ^ ilog2 n ≤ n ∧ n < 2 ^ (ilog2 n + 1) :=
  ilog2_aux_spec n n (le_refl n) hne

theorem pow2_eq (e : Int) : pow2 e = (2 : ℚ) ^ e := by
  unfold pow2
  by_cases h : 0 ≤ e
  · rw [if_pos h]
    push_cast
    rw [← zpow_natCast, Int.toNat_of_nonneg h]
  · rw [if_neg h]
    push_cast
    rw [← zpow_natCast, Int.toNat_of_nonneg (by omega), zpow_neg, one_div, inv_inv]

theorem pow2_pos (e : Int) : 0 < pow2 e := by
  rw [pow2_eq]
  positivity

theorem round_even_err (y : ℚ) : |(round_even y : ℚ) - y| ≤ 1 / 2 := by
  have h1 := Int.floor_le y
  have h2 := Int.lt_floor_add_one y
  unfold round_even
  rw [abs_le]
  split_ifs <;> push_cast <;> constructor <;> linarith

theorem abs_eq_natAbs_div (x : ℚ) : |x| = (x.num.natAbs : ℚ) / (x.den : ℚ) := by
  have hden : (0 : ℚ) < (x.den : ℚ) := by exact_mod_cast x.den_pos
  have hx : x = (x.num : ℚ) / (x.den : ℚ) := (Rat.num_div_den x).symm
  have hn : ((x.num.natAbs : ℕ) : ℚ) = |(x.num : ℚ)| := by
    rw [Nat.cast_natAbs, Int.cast_abs]
  rw [hn]
  conv_lhs => rw [hx]
  rw [abs_div, abs_of_pos hden]

theorem binade_le (x : ℚ) (hx : x ≠ 0) : (2 : ℚ) ^ binade x ≤ |x| := by
  unfold binade
  by_cases h : pow2 ((ilog2 x.num.natAbs : Int) - (ilog2 x.den : Int)) ≤ |x|
  · rw [if_pos h, ← pow2_eq]
    exact h
  · rw [if_neg h, abs_eq_natAbs_div]
    have hnum : x.num.natAbs ≠ 0 := by
      intro h0
      exact hx (Rat.zero_of_num_zero (Int.natAbs_eq_zero.mp h0))
    obtain ⟨hp, _⟩ := ilog2_spec x.num.natAbs hnum
    obtain ⟨_, hq⟩ := ilog2_spec x.den x.den_nz
    have hden : (0 : ℚ) < (x.den : ℚ) := by exact_mod_cast x.den_pos
    have hpQ : (2 : ℚ) ^ (ilog2 x.num.natAbs) ≤ (x.num.natAbs : ℚ) := by exact_mod_cast hp
    have hqQ : (x.den : ℚ) ≤ (2 : ℚ) ^ (ilog2 x.den + 1) := by exact_mod_cast le_of_lt hq
    have he : (2 : ℚ) ^ ((ilog2 x.num.natAbs : Int) - (ilog2 x.den : Int) - 1)
        = (2 : ℚ) ^ (ilog2 x.num.natAbs) / (2 : ℚ) ^ (ilog2 x.den + 1) := by
      rw [sub_sub, zpow_sub₀ (by norm_num : (2 : ℚ) ≠ 0), zpow_natCast]
      congr 1
      rw [← zpow_natCast]
      push_cast
      rfl
    rw [he]
    exact div_le_div₀ (by positivity) hpQ hden hqQ

theorem fl64_err (x : ℚ) : |fl64 x - x| ≤ (|x| + 1) / 2 ^ 53 := by
  unfold fl64
  by_cases hx : x = 0
  · rw [if_pos hx, hx]
    norm_num
  · rw [if_neg hx, pow2_eq]
    set e : Int := max (binade x) (-1022) - 52 with he
    have hq : (0 : ℚ) < (2 : ℚ) ^ e := by positivity
    have hr := round_even_err (x / (2 : ℚ) ^ e)
    have hfact : (round_even (x / (2 : ℚ) ^ e) : ℚ) * (2 : ℚ) ^ e - x
        = ((round_even (x / (2 : ℚ) ^ e) : ℚ) - x / (2 : ℚ) ^ e) * (2 : ℚ) ^ e := by
      field_simp
    rw [hfact, abs_mul, abs_of_pos hq]
    have hstep : |(round_even (x / (2 : ℚ) ^ e) : ℚ) - x / (2 : ℚ) ^ e| * (2 : ℚ) ^ e
        ≤ 1 / 2 * (2 : ℚ) ^ e := mul_le_mul_of_nonneg_right hr (le_of_lt hq)
    refine le_trans hstep ?_
    have hq2 : 1 / 2 * (2 : ℚ) ^ e = (2 : ℚ) ^ (e + 52) / 2 ^ 53 := by
      rw [zpow_add₀ (by norm_num : (2 : ℚ) ≠ 0)]
      norm_num
      ring
    rw [hq2]
    apply div_le_div_of_nonneg_right _ (by positivity)
    have he52 : e + 52 = max (binade x) (-1022) := by omega
    rw [he52]
    by_cases hb : -1022 ≤ binade x
    · rw [max_eq_left hb]
      have := binade_le x hx
      have h0 := abs_nonneg x
      linarith
    · rw [max_eq_right (by omega)]
      have h0 := abs_nonneg x
      have : (2 : ℚ) ^ (-1022 : Int) ≤ 1 := by
        apply zpow_le_one_of_nonpos₀ <;> norm_num
      linarith

/-- The error model applied below a known magnitude. -/
theorem fl_bound (fl : ℚ → ℚ) (H : ∀ z : ℚ, |fl z - z| ≤ (|z| + 1) / 9007199254740992)
    (z b : ℚ) (hz : |z| ≤ b) :
    |fl z - z| ≤ (b + 1) / 9007199254740992 ∧ |fl z| ≤ b + (b + 1) / 9007199254740992 := by
  have h1 : |fl z - z| ≤ (b + 1) / 9007199254740992 := by
    refine le_trans (H z) ?_
    apply div_le_div_of_nonneg_right _ (by positivity)
    linarith
  refine ⟨h1, ?_⟩
  have h2 : |fl z| ≤ |fl z - z| + |z| := by
    have := abs_add (fl z - z) z
    simpa using this
  linarith

/-- One update of lines 139-142 under rounding, against the same update over
the rationals: the errors of the mean and of the sum of squares grow at most
from `22 β (n-1) / 2^53` to `22 β n / 2^53` and from `256 β² (n-1)² / 2^53` to
`256 β² n² / 2^53` (`9007199254740992 = 2^53`, `2147483648 = 2^31`). -/
theorem welford_step_err (fl : ℚ → ℚ)
    (H : ∀ z : ℚ, |fl z - z| ≤ (|z| + 1) / 9007199254740992)
    (β : ℚ) (hβ : 1 ≤ β) (n x : Int) (hn1 : 1 ≤ n) (hn2 : n ≤ 2147483648)
    (hx : |(x : ℚ)| ≤ β) (m M μ T : ℚ)
    (hμ : |μ| ≤ β) (hμ' : |(welford id n μ T x).1| ≤ β)
    (hT0 : 0 ≤ T) (hT : T ≤ 4 * β ^ 2 * ((n : ℚ) - 1))
    (he : |m - μ| ≤ 22 * β * ((n : ℚ) - 1) / 9007199254740992)
    (hE : |M - T| ≤ 256 * β ^ 2 * ((n : ℚ) - 1) ^ 2 / 9007199254740992) :
    |(welford fl n m M x).1 - (welford id n μ T x).1|
      ≤ 22 * β * (n : ℚ) / 9007199254740992 ∧
    |(welford fl n m M x).2 - (welford id n μ T x).2|
      ≤ 256 * β ^ 2 * (n : ℚ) ^ 2 / 9007199254740992 := by
  have hN1 : (1 : ℚ) ≤ (n : ℚ) := by exact_mod_cast hn1
  have hN2 : (n : ℚ) ≤ 2147483648 := by exact_mod_cast hn2
  have hex1 : (welford id n μ T x).1 = μ + ((x : ℚ) - μ) / (n : ℚ) := rfl
  have hex2 : (welford id n μ T x).2
      = T + ((x : ℚ) - μ) * ((x : ℚ) - (μ + ((x : ℚ) - μ) / (n : ℚ))) := rfl
  have hfl1 : (welford fl n m M x).1
      = fl (m + fl (fl (fl (x : ℚ) - m) / (n : ℚ))) := rfl
  have hfl2 : (welford fl n m M x).2
      = fl (M + fl (fl (fl (x : ℚ) - m)
          * fl (fl (x : ℚ) - fl (m + fl (fl (fl (x : ℚ) - m) / (n : ℚ)))))) := rfl
  rw [hex1] at hμ'
  rw [hex1, hex2, hfl1, hfl2]
  clear hex1 hex2 hfl1 hfl2
  generalize (n : ℚ) = N at *
  generalize (x : ℚ) = X at *
  have hNpos : (0 : ℚ) < N := by linarith only [hN1]
  have hβ0 : (0 : ℚ) ≤ β := by linarith only [hβ]
  have hβ2 : β ≤ β ^ 2 := by nlinarith only [hβ]
  -- the old mean
  have hβN : β * (N - 1) ≤ β * 2147483648 :=
    mul_le_mul_of_nonneg_left (by linarith only [hN2]) hβ0
  have hem : |m - μ| ≤ β := by
    refine le_trans he ?_
    rw [div_le_iff₀ (by norm_num)]
    linarith only [hβN, hβ0]
  have hm : |m| ≤ 2 * β := by
    have h1 : |m| ≤ |m - μ| + |μ| := by
      have := abs_add (m - μ) μ
      simpa using this
    linarith only [h1, hem, hμ]
  -- the rounded step, operation by operation
  obtain ⟨hxh, hxhb⟩ := fl_bound fl H X β hx
  generalize fl X = xh at *
  have hxh' : |xh - X| ≤ 2 * β / 9007199254740992 := by
    refine le_trans hxh ?_
    apply div_le_div_of_nonneg_right _ (by norm_num)
    linarith only [hβ]
  have ht1 : |xh - m| ≤ 4 * β := by
    have h1 := abs_sub xh m
    have h53 : (β + 1) / 9007199254740992 ≤ β := by
      rw [div_le_iff₀ (by norm_num)]
      linarith only [hβ]
    linarith only [h1, h53, hxhb, hm]
  obtain ⟨hd, hdb⟩ := fl_bound fl H (xh - m) (4 * β) ht1
  generalize fl (xh - m) = d at *
  have hd' : |d - (xh - m)| ≤ 5 * β / 9007199254740992 := by
    refine le_trans hd ?_
    apply div_le_div_of_nonneg_right _ (by norm_num)
    linarith only [hβ]
  have hdb' : |d| ≤ 5 * β := by
    have h53 : (4 * β + 1) / 9007199254740992 ≤ β := by
      rw [div_le_iff₀ (by norm_num)]
      linarith only [hβ]
    linarith only [hdb, h53]
  have ht2 : |d / N| ≤ 5 * β := by
    rw [abs_div, abs_of_pos hNpos, div_le_iff₀ hNpos]
    have h1 : 5 * β * 1 ≤ 5 * β * N :=
      mul_le_mul_of_nonneg_left hN1 (by linarith only [hβ0])
    linarith only [h1, hdb']
  obtain ⟨hq, hqb⟩ := fl_bound fl H (d / N) (5 * β) ht2
  generalize fl (d / N) = q at *
  have hq' : |q - d / N| ≤ 6 * β / 9007199254740992 := by
    refine le_trans hq ?_
    apply div_le_div_of_nonneg_right _ (by norm_num)
    linarith only [hβ]
  have hqb' : |q| ≤ 6 * β := by
    have h53 : (5 * β + 1) / 9007199254740992 ≤ β := by
      rw [div_le_iff₀ (by norm_num)]
      linarith only [hβ]
    linarith only [hqb, h53]
  have ht3 : |m + q| ≤ 8 * β := by
    have h1 := abs_add m q
    linarith only [h1, hm, hqb']
  obtain ⟨hm', _⟩ := fl_bound fl H (m + q) (8 * β) ht3
  generalize fl (m + q) = m' at *
  have hm'' : |m' - (m + q)| ≤ 9 * β / 9007199254740992 := by
    refine le_trans hm' ?_
    apply div_le_div_of_nonneg_right _ (by norm_num)
    linarith only [hβ]
  -- the error of the new mean
  have hid : N * (m' - (μ + (X - μ) / N))
      = (N - 1) * (m - μ) + (xh - X) + (d - (xh - m)) + N * (q - d / N)
        + N * (m' - (m + q)) := by
    field_simp
    ring
  have a1 : |(N - 1) * (m - μ)| ≤ (N - 1) * (22 * β * (N - 1) / 9007199254740992) := by
    rw [abs_mul, abs_of_nonneg (by linarith only [hN1] : (0 : ℚ) ≤ N - 1)]
    exact mul_le_mul_of_nonneg_left he (by linarith only [hN1])
  have a2 : |N * (q - d / N)| ≤ N * (6 * β / 9007199254740992) := by
    rw [abs_mul, abs_of_pos hNpos]
    exact mul_le_mul_of_nonneg_left hq' (le_of_lt hNpos)
  have a3 : |N * (m' - (m + q))| ≤ N * (9 * β / 9007199254740992) := by
    rw [abs_mul, abs_of_pos hNpos]
    exact mul_le_mul_of_nonneg_left hm'' (le_of_lt hNpos)
  have tri : |(N - 1) * (m - μ) + (xh - X) + (d - (xh - m)) + N * (q - d / N)
      + N * (m' - (m + q))|
      ≤ |(N - 1) * (m - μ)| + |xh - X| + |d - (xh - m)| + |N * (q - d / N)|
        + |N * (m' - (m + q))| := by
    refine le_trans (abs_add _ _) ?_
    refine add_le_add_right ?_ _
    refine le_trans (abs_add _ _) ?_
    refine add_le_add_right ?_ _
    refine le_trans (abs_add _ _) ?_
    refine add_le_add_right ?_ _
    exact abs_add _ _
  have hβNN : 0 ≤ β * N * (N - 1) :=
    mul_nonneg (mul_nonneg hβ0 (le_of_lt hNpos)) (by linarith only [hN1])
  have hβN1 : β * 1 ≤ β * N := mul_le_mul_of_nonneg_left hN1 hβ0
  have hNe : N * |m' - (μ + (X - μ) / N)| ≤ N * (22 * β * N / 9007199254740992) := by
    rw [← abs_of_pos hNpos, ← abs_mul, abs_of_pos hNpos, hid]
    refine le_trans tri ?_
    have hgoal : (N - 1) * (22 * β * (N - 1) / 9007199254740992)
        + 2 * β / 9007199254740992 + 5 * β / 9007199254740992
        + N * (6 * β / 9007199254740992) + N * (9 * β / 9007199254740992)
        ≤ N * (22 * β * N / 9007199254740992) := by
      have hexp : N * (22 * β * N / 9007199254740992)
          - ((N - 1) * (22 * β * (N - 1) / 9007199254740992)
            + 2 * β / 9007199254740992 + 5 * β / 9007199254740992
            + N * (6 * β / 9007199254740992) + N * (9 * β / 9007199254740992))
          = (29 * (β * N) - 29 * (β * 1)) / 9007199254740992 := by
        field_simp
        ring
      have hnn : 0 ≤ (29 * (β * N) - 29 * (β * 1)) / 9007199254740992 :=
        div_nonneg (by linarith only [hβN1]) (by norm_num)
      linarith only [hexp, hnn]
    linarith only [hgoal, a1, a2, a3, hxh', hd']
  have he' : |m' - (μ + (X - μ) / N)| ≤ 22 * β * N / 9007199254740992 :=
    le_of_mul_le_mul_left hNe hNpos
  refine ⟨he', ?_⟩
  -- the new mean
  have hβN' : β * N ≤ β * 2147483648 := mul_le_mul_of_nonneg_left hN2 hβ0
  have hem' : |m' - (μ + (X - μ) / N)| ≤ β := by
    refine le_trans he' ?_
    rw [div_le_iff₀ (by norm_num)]
    linarith only [hβN', hβ0]
  have hmb' : |m'| ≤ 2 * β := by
    have h1 : |m'| ≤ |m' - (μ + (X - μ) / N)| + |μ + (X - μ) / N| := by
      have := abs_add (m' - (μ + (X - μ) / N)) (μ + (X - μ) / N)
      simpa using this
    linarith only [h1, hem', hμ']
  have ht4 : |xh - m'| ≤ 4 * β := by
    have h1 := abs_sub xh m'
    have h53 : (β + 1) / 9007199254740992 ≤ β := by
      rw [div_le_iff₀ (by norm_num)]
      linarith only [hβ]
    linarith only [h1, h53, hxhb, hmb']
  obtain ⟨hd2, hd2b⟩ := fl_bound fl H (xh - m') (4 * β) ht4
  generalize fl (xh - m') = d2 at *
  have hd2' : |d2 - (xh - m')| ≤ 5 * β / 9007199254740992 := by
    refine le_trans hd2 ?_
    apply div_le_div_of_nonneg_right _ (by norm_num)
    linarith only [hβ]
  have hd2b' : |d2| ≤ 5 * β := by
    have h53 : (4 * β + 1) / 9007199254740992 ≤ β := by
      rw [div_le_iff₀ (by norm_num)]
      linarith only [hβ]
    linarith only [hd2b, h53]
  -- the deviations
  have hD1 : |X - μ| ≤ 2 * β := by
    have h1 := abs_sub X μ
    linarith only [h1, hx, hμ]
  have hg1 : |d - (X - μ)| ≤ (7 * β + 22 * β * (N - 1)) / 9007199254740992 := by
    have h1 : d - (X - μ) = (d - (xh - m)) + (xh - X) + -(m - μ) := by ring
    have h2 : |(d - (xh - m)) + (xh - X) + -(m - μ)|
        ≤ |d - (xh - m)| + |xh - X| + |m - μ| := by
      refine le_trans (abs_add _ _) ?_
      rw [abs_neg]
      exact add_le_add_right (abs_add _ _) _
    rw [h1]
    linarith only [h2, hd', hxh', he]
  have hg2 : |d2 - (X - (μ + (X - μ) / N))|
      ≤ (7 * β + 22 * β * N) / 9007199254740992 := by
    have h1 : d2 - (X - (μ + (X - μ) / N))
        = (d2 - (xh - m')) + (xh - X) + -(m' - (μ + (X - μ) / N)) := by ring
    have h2 : |(d2 - (xh - m')) + (xh - X) + -(m' - (μ + (X - μ) / N))|
        ≤ |d2 - (xh - m')| + |xh - X| + |m' - (μ + (X - μ) / N)| := by
      refine le_trans (abs_add _ _) ?_
      rw [abs_neg]
      exact add_le_add_right (abs_add _ _) _
    rw [h1]
    linarith only [h2, hd2', hxh', he']
  -- the product
  have hG1 : 0 ≤ (7 * β + 22 * β * (N - 1)) / 9007199254740992 :=
    le_trans (abs_nonneg _) hg1
  have hp1 : |(d - (X - μ)) * d2|
      ≤ (7 * β + 22 * β * (N - 1)) / 9007199254740992 * (5 * β) := by
    rw [abs_mul]
    exact mul_le_mul hg1 hd2b' (abs_nonneg _) hG1
  have hp2 : |(X - μ) * (d2 - (X - (μ + (X - μ) / N)))|
      ≤ 2 * β * ((7 * β + 22 * β * N) / 9007199254740992) := by
    rw [abs_mul]
    exact mul_le_mul hD1 hg2 (abs_nonneg _) (by linarith only [hβ0])
  have hpd : |d * d2 - (X - μ) * (X - (μ + (X - μ) / N))|
      ≤ (7 * β + 22 * β * (N - 1)) / 9007199254740992 * (5 * β)
        + 2 * β * ((7 * β + 22 * β * N) / 9007199254740992) := by
    have h1 : d * d2 - (X - μ) * (X - (μ + (X - μ) / N))
        = (d - (X - μ)) * d2 + (X - μ) * (d2 - (X - (μ + (X - μ) / N))) := by ring
    rw [h1]
    exact le_trans (abs_add _ _) (add_le_add hp1 hp2)
  have hp : |d * d2| ≤ 25 * β ^ 2 := by
    rw [abs_mul]
    have := mul_le_mul hdb' hd2b' (abs_nonneg _) (by linarith only [hβ0] : 0 ≤ 5 * β)
    linarith only [this]
  obtain ⟨hph, hphb⟩ := fl_bound fl H (d * d2) (25 * β ^ 2) hp
  generalize fl (d * d2) = ph at *
  have hph' : |ph - d * d2| ≤ 26 * β ^ 2 / 9007199254740992 := by
    refine le_trans hph ?_
    apply div_le_div_of_nonneg_right _ (by norm_num)
    linarith only [hβ, hβ2]
  have hphb' : |ph| ≤ 26 * β ^ 2 := by
    have h53 : (25 * β ^ 2 + 1) / 9007199254740992 ≤ β ^ 2 := by
      rw [div_le_iff₀ (by norm_num)]
      linarith only [hβ, hβ2]
    linarith only [hphb, h53]
  -- the sum
  have hMb : |M| ≤ 256 * β ^ 2 * (N - 1) ^ 2 / 9007199254740992
      + 4 * β ^ 2 * (N - 1) := by
    have h1 : |M| ≤ |M - T| + |T| := by
      have := abs_add (M - T) T
      simpa using this
    rw [abs_of_nonneg hT0] at h1
    linarith only [h1, hE, hT]
  have ht6 : |M + ph| ≤ 256 * β ^ 2 * (N - 1) ^ 2 / 9007199254740992
      + 4 * β ^ 2 * (N - 1) + 26 * β ^ 2 := by
    have h1 := abs_add M ph
    linarith only [h1, hMb, hphb']
  obtain ⟨hM', _⟩ := fl_bound fl H (M + ph) _ ht6
  generalize fl (M + ph) = M' at *
  -- the error of the new sum of squares
  have hid2 : M' - (T + (X - μ) * (X - (μ + (X - μ) / N)))
      = (M' - (M + ph)) + (M - T) + (ph - d * d2)
        + (d * d2 - (X - μ) * (X - (μ + (X - μ) / N))) := by ring
  have tri2 : |(M' - (M + ph)) + (M - T) + (ph - d * d2)
      + (d * d2 - (X - μ) * (X - (μ + (X - μ) / N)))|
      ≤ |M' - (M + ph)| + |M - T| + |ph - d * d2|
        + |d * d2 - (X - μ) * (X - (μ + (X - μ) / N))| := by
    refine le_trans (abs_add _ _) ?_
    refine add_le_add_right ?_ _
    refine le_trans (abs_add _ _) ?_
    refine add_le_add_right ?_ _
    exact abs_add _ _
  rw [hid2]
  refine le_trans tri2 ?_
  have hB0 : (0 : ℚ) ≤ β ^ 2 := by positivity
  have f1 : (1 : ℚ) ≤ β ^ 2 := by linarith only [hβ, hβ2]
  have f3 : 0 ≤ β ^ 2 * (N - 1) := mul_nonneg hB0 (by linarith only [hN1])
  have f2 : β ^ 2 * (N - 1) * (N - 1) ≤ β ^ 2 * (N - 1) * 2147483648 :=
    mul_le_mul_of_nonneg_left (by linarith only [hN2]) f3
  linarith only [hM', hE, hph', hpd, f1, f2, f3]

theorem binade_spec (x : ℚ) (hx : x ≠ 0) :
    (2 : ℚ) ^ binade x ≤ |x| ∧ |x| < (2 : ℚ) ^ (binade x + 1) := by
  refine ⟨binade_le x hx, ?_⟩
  unfold binade
  by_cases h : pow2 ((ilog2 x.num.natAbs : Int) - (ilog2 x.den : Int)) ≤ |x|
  · rw [if_pos h, abs_eq_natAbs_div]
    have hnum : x.num.natAbs ≠ 0 := by
      intro h0
      exact hx (Rat.zero_of_num_zero (Int.natAbs_eq_zero.mp h0))
    obtain ⟨_, hp⟩ := ilog2_spec x.num.natAbs hnum
    obtain ⟨hq, _⟩ := ilog2_spec x.den x.den_nz
    have hpQ : (x.num.natAbs : ℚ) < (2 : ℚ) ^ (ilog2 x.num.natAbs + 1) := by
      exact_mod_cast hp
    have hqQ : (2 : ℚ) ^ (ilog2 x.den) ≤ (x.den : ℚ) := by exact_mod_cast hq
    have he : (2 : ℚ) ^ ((ilog2 x.num.natAbs : Int) - (ilog2 x.den : Int) + 1)
        = (2 : ℚ) ^ (ilog2 x.num.natAbs + 1) / (2 : ℚ) ^ (ilog2 x.den) := by
      rw [sub_add_eq_add_sub, zpow_sub₀ (by norm_num : (2 : ℚ) ≠ 0), zpow_natCast]
      congr 1
      rw [← zpow_natCast]
      push_cast
      rfl
    rw [he]
    exact div_lt_div₀ hpQ hqQ (by positivity) (by positivity)
  · rw [if_neg h, sub_add_cancel, ← pow2_eq]
    exact not_le.mp h

/-- Sample roundings: `1/10` goes to the binary64 value of `0.1`, an integer
below `2^53` to itself, `2^53 + 1` (half way) to the even neighbour `2^53`,
`2^53 + 3` to `2^53 + 4`, and half the least subnormal value to zero. -/
theorem fl64_samples :
    fl64 (1 / 10) = 3602879701896397 / 36028797018963968 ∧
    fl64 400000001 = 400000001 ∧
    fl64 (-199988) = -199988 ∧
    fl64 9007199254740993 = 9007199254740992 ∧
    fl64 9007199254740995 = 9007199254740996 ∧
    fl64 (1 / 2 ^ 1075) = 0 ∧
    fl64 (3 / 2 ^ 1075) = 2 / 2 ^ 1074 := by
  decide!

/-! ### The Welford update, exact and rounded -/

theorem welford_run_snoc (fl : ℚ → ℚ) (xs : List Int) (x : Int) :
    ∀ (t : Int) (s : ℚ × ℚ),
      welford_run fl t s (xs ++ [x])
        = welford fl (t + (xs.length : Int) + 1) (welford_run fl t s xs).1
            (welford_run fl t s xs).2 x := by
  induction xs with
  | nil =>
    intro t s
    simp [welford_run]
  | cons y ys ih =>
    intro t s
    rw [List.cons_append, welford_run, ih, welford_run, List.length_cons]
    push_cast
    congr 1
    ring

/-- The exact reading: the invariant of the Welford update over the rationals. -/
theorem welford_run_exact (xs : List Int) :
    (welford_run id 0 (0, 0) xs).1 * (xs.length : ℚ) = sumQ xs ∧
    (welford_run id 0 (0, 0) xs).2 = sq_dev (welford_run id 0 (0, 0) xs).1 xs := by
  have key : (welford_run id 0 (0, 0) xs).1 * (xs.length : ℚ) = sumQ xs ∧
      (welford_run id 0 (0, 0) xs).2
        = sq_dev 0 xs - (xs.length : ℚ) * (welford_run id 0 (0, 0) xs).1 ^ 2 := by
    induction xs using List.reverseRecOn with
    | nil => simp [welford_run, sq_dev, sumQ]
    | append_singleton xs x ih =>
      obtain ⟨hm, hM⟩ := ih
      have hn : ((xs.length : ℚ) + 1) ≠ 0 := by positivity
      have hmean : (welford_run id 0 (0, 0) (xs ++ [x])).1
          = (welford_run id 0 (0, 0) xs).1
            + ((x : ℚ) - (welford_run id 0 (0, 0) xs).1) / ((xs.length : ℚ) + 1) := by
        rw [welford_run_snoc]
        simp [welford]
      have hM2 : (welford_run id 0 (0, 0) (xs ++ [x])).2
          = (welford_run id 0 (0, 0) xs).2
            + ((x : ℚ) - (welford_run id 0 (0, 0) xs).1)
              * ((x : ℚ) - (welford_run id 0 (0, 0) (xs ++ [x])).1) := by
        rw [hmean, welford_run_snoc]
        simp [welford]
      refine ⟨?_, ?_⟩
      · rw [hmean, sumQ_snoc, ← hm, List.length_append]
        simp only [List.length_singleton]
        push_cast
        field_simp
        ring
      · rw [hM2, hM, hmean, sq_dev_snoc, List.length_append]
        simp only [List.length_singleton]
        push_cast
        field_simp
        ring
  refine ⟨key.1, ?_⟩
  rw [key.2, sq_dev_expand (welford_run id 0 (0, 0) xs).1 xs, ← key.1]
  ring

theorem abs_sumQ_le (β : ℚ) (xs : List Int) (hx : ∀ x ∈ xs, |(x : ℚ)| ≤ β) :
    |sumQ xs| ≤ (xs.length : ℚ) * β := by
  induction xs using List.reverseRecOn with
  | nil => simp [sumQ]
  | append_singleton xs x ih =>
    have h1 := ih (fun z hz => hx z (by simp [hz]))
    have h2 := hx x (by simp)
    rw [sumQ_snoc, List.length_append]
    simp only [List.length_singleton]
    push_cast
    have h3 := abs_add (sumQ xs) (x : ℚ)
    linarith only [h1, h2, h3]

theorem sq_dev_bounds (β m : ℚ) (hm : |m| ≤ β) (xs : List Int)
    (hx : ∀ x ∈ xs, |(x : ℚ)| ≤ β) :
    0 ≤ sq_dev m xs ∧ sq_dev m xs ≤ 4 * β ^ 2 * (xs.length : ℚ) := by
  induction xs using List.reverseRecOn with
  | nil => simp [sq_dev]
  | append_singleton xs x ih =>
    obtain ⟨h0, h1⟩ := ih (fun z hz => hx z (by simp [hz]))
    have h2 := hx x (by simp)
    rw [sq_dev_snoc, List.length_append]
    simp only [List.length_singleton]
    push_cast
    have h3 : |(x : ℚ) - m| ≤ 2 * β := by
      have := abs_sub (x : ℚ) m
      linarith only [this, h2, hm]
    have h4 : ((x : ℚ) - m) ^ 2 ≤ (2 * β) ^ 2 := by
      rw [← sq_abs ((x : ℚ) - m)]
      exact pow_le_pow_left₀ (abs_nonneg _) h3 2
    have h5 : 0 ≤ ((x : ℚ) - m) ^ 2 := sq_nonneg _
    constructor
    · linarith only [h0, h5]
    · linarith only [h1, h4]

theorem exact_mean_bound (β : ℚ) (hβ : 0 ≤ β) (xs : List Int)
    (hx : ∀ x ∈ xs, |(x : ℚ)| ≤ β) :
    |(welford_run id 0 (0, 0) xs).1| ≤ β := by
  by_cases hne : xs = []
  · subst hne
    simpa [welford_run] using hβ
  · have hlen : (0 : ℚ) < (xs.length : ℚ) := by
      have : 0 < xs.length := List.length_pos.mpr hne
      exact_mod_cast this
    have h1 := (welford_run_exact xs).1
    have h2 := abs_sumQ_le β xs hx
    rw [← h1, abs_mul, abs_of_pos hlen] at h2
    have h3 : |(welford_run id 0 (0, 0) xs).1| * (xs.length : ℚ) ≤ β * (xs.length : ℚ) := by
      linarith only [h2]
    exact le_of_mul_le_mul_right h3 hlen

/-- The rounded run stays within tolerance of the exact one. -/
theorem welford_run_err (fl : ℚ → ℚ)
    (H : ∀ z : ℚ, |fl z - z| ≤ (|z| + 1) / 9007199254740992)
    (β : ℚ) (hβ : 1 ≤ β) (xs : List Int) (hlen : xs.length ≤ 2147483648)
    (hx : ∀ x ∈ xs, |(x : ℚ)| ≤ β) :
    |(welford_run fl 0 (0, 0) xs).1 - (welford_run id 0 (0, 0) xs).1|
      ≤ 22 * β * (xs.length : ℚ) / 9007199254740992 ∧
    |(welford_run fl 0 (0, 0) xs).2 - (welford_run id 0 (0, 0) xs).2|
      ≤ 256 * β ^ 2 * (xs.length : ℚ) ^ 2 / 9007199254740992 := by
  induction xs using List.reverseRecOn with
  | nil => simp [welford_run]
  | append_singleton xs x ih =>
    have hxs : ∀ z ∈ xs, |(z : ℚ)| ≤ β := fun z hz => hx z (by simp [hz])
    have hlen' : xs.length + 1 ≤ 2147483648 := by
      simpa using hlen
    obtain ⟨he, hE⟩ := ih (by omega) hxs
    have hβ0 : (0 : ℚ) ≤ β := by linarith only [hβ]
    have hμ := exact_mean_bound β hβ0 xs hxs
    have hμ' := exact_mean_bound β hβ0 (xs ++ [x]) hx
    obtain ⟨hT0, hT⟩ := sq_dev_bounds β _ hμ xs hxs
    rw [← (welford_run_exact xs).2] at hT0 hT
    rw [welford_run_snoc] at hμ'
    have hcast : (((0 : Int) + (xs.length : Int) + 1 : Int) : ℚ) = (xs.length : ℚ) + 1 := by
      push_cast
      ring
    have hstep := welford_step_err fl H β hβ ((0 : Int) + (xs.length : Int) + 1) x
      (by omega) (by omega) (hx x (by simp))
      (welford_run fl 0 (0, 0) xs).1 (welford_run fl 0 (0, 0) xs).2
      (welford_run id 0 (0, 0) xs).1 (welford_run id 0 (0, 0) xs).2
      hμ hμ' hT0
      (by rw [hcast]; linarith only [hT])
      (by rw [hcast]; linarith only [he])
      (by rw [hcast]; linarith only [hE])
    rw [hcast] at hstep
    rw [welford_run_snoc, welford_run_snoc, List.length_append]
    simp only [List.length_singleton]
    push_cast
    exact hstep

theorem fl64_err_num (x : ℚ) : |fl64 x - x| ≤ (|x| + 1) / 9007199254740992 := by
  have h := fl64_err x
  have h53 : (2 : ℚ) ^ 53 = 9007199254740992 := by norm_num
  rw [h53] at h
  exact h

theorem feed_total (margin : Int) (xs : List Int) :
    ∀ st : Stats, (feed margin st xs).total = st.total + (xs.length : Int) := by
  induction xs with
  | nil =>
    intro st
    simp [feed_nil]
  | cons x xs ih =>
    intro st
    rw [feed_cons, ih, tally_total, List.length_cons]
    push_cast
    ring

/-- The `mean` and `M2` of a run of lines 137-156 are those of `welford_run`
under binary64 rounding. -/
theorem feed_welford_run (margin : Int) (xs : List Int) :
    ∀ st : Stats, ((feed margin st xs).mean, (feed margin st xs).M2)
      = welford_run fl64 st.total (st.mean, st.M2) xs := by
  induction xs with
  | nil =>
    intro st
    rfl
  | cons x xs ih =>
    intro st
    rw [feed_cons, ih, tally_total, tally_welford]
    rfl

/-- C1: for every fetched timestamp `(sec, n)` with `0 ≤ n < 1_000_000_000` the
pair produced by the normalisation of `fetch_source` has its nanoseconds in
`(-500_000_000, 500_000_000]`, stands for the same instant, and its offset is
`n` when `n ≤ 500_000_000` and `n - 1_000_000_000` otherwise (so it is
congruent to `n` modulo `1_000_000_000`). -/
theorem normalize_spec (sec n : Int) (h0 : 0 ≤ n) (h1 : n < 1000000000) :
    -500000000 < (normalize ⟨sec, n⟩).tv_nsec ∧
    (normalize ⟨sec, n⟩).tv_nsec ≤ 500000000 ∧
    (normalize ⟨sec, n⟩).tv_sec * 1000000000 + (normalize ⟨sec, n⟩).tv_nsec
      = sec * 1000000000 + n ∧
    (normalize ⟨sec, n⟩).tv_nsec % 1000000000 = n % 1000000000 ∧
    (n ≤ 500000000 → (normalize ⟨sec, n⟩).tv_nsec = n) ∧
    (500000000 < n → (normalize ⟨sec, n⟩).tv_nsec = n - 1000000000) := by
  have hhalf : NSEC_PER_SEC / 2 = 500000000 := by decide
  have hsec : NSEC_PER_SEC = 1000000000 := rfl
  unfold normalize
  rw [hhalf, hsec]
  by_cases h : n > 500000000
  · rw [if_pos h]
    dsimp only
    refine ⟨by omega, by omega, by ring, by omega, by omega, fun _ => rfl⟩
  · rw [if_neg h]
    dsimp only
    refine ⟨by omega, by omega, rfl, rfl, fun _ => rfl, by omega⟩

/-- A timestamp past the half second and one before it, normalised. -/
theorem normalize_spec_witness :
    (normalize ⟨7, 999999000⟩ = ⟨8, -1000⟩) ∧
    -500000000 < (normalize ⟨7, 999999000⟩).tv_nsec ∧
    (normalize ⟨7, 999999000⟩).tv_nsec ≤ 500000000 ∧
    (normalize ⟨7, 999999000⟩).tv_sec * 1000000000 + (normalize ⟨7, 999999000⟩).tv_nsec
      = 7 * 1000000000 + 999999000 ∧
    (normalize ⟨7, 999999000⟩).tv_nsec % 1000000000 = 999999000 % 1000000000 ∧
    ((999999000 : Int) ≤ 500000000 → (normalize ⟨7, 999999000⟩).tv_nsec = 999999000) ∧
    ((500000000 : Int) < 999999000 →
      (normalize ⟨7, 999999000⟩).tv_nsec = 999999000 - 1000000000) :=
  ⟨by decide, normalize_spec 7 999999000 (by decide) (by decide)⟩

/-- C2: for every non-empty sequence of offsets `x_1..x_k`, `k` below the limit
of `int`, each of absolute value at most `β` (`β = 500000000` covers the
normalised offsets), processed from the initial state: `total = k`; read over
the rationals, lines 139-142 give exactly the arithmetic mean `(x_1+...+x_k)/k`
and the sum of the `(x_i - mean)^2`; the `double` variables of the program,
rounded at every operation, are within `22 k β / 2^53` of that mean and within
`256 k² β² / 2^53` of that sum, so that the quotient `M2 / total` of
`print_stats`, before and after its own rounding, is within
`(256 k + 6) β² / 2^53` of the population variance.  On the offsets
`400000001, 400000002, 400000003` the program's `mean` and `M2` are exactly
`400000002` and `2`. -/
theorem welford_correct (margin : Int) (β : ℚ) (xs : List Int) (hne : xs ≠ [])
    (hlen : xs.length < 2 ^ 31) (hβ : 1 ≤ β) (hx : ∀ x ∈ xs, |(x : ℚ)| ≤ β) :
    (feed margin Stats.init xs).total = (xs.length : Int) ∧
    welford_run id 0 (0, 0) xs
      = (sumQ xs / (xs.length : ℚ), sq_dev (sumQ xs / (xs.length : ℚ)) xs) ∧
    ((feed margin Stats.init xs).mean, (feed margin Stats.init xs).M2)
      = welford_run fl64 0 (0, 0) xs ∧
    |(feed margin Stats.init xs).mean - sumQ xs / (xs.length : ℚ)|
      ≤ 22 * (xs.length : ℚ) * β / 2 ^ 53 ∧
    |(feed margin Stats.init xs).M2 - sq_dev (sumQ xs / (xs.length : ℚ)) xs|
      ≤ 256 * (xs.length : ℚ) ^ 2 * β ^ 2 / 2 ^ 53 ∧
    (print_stats margin (feed margin Stats.init xs)).variance
      = some ((feed margin Stats.init xs).M2 / (xs.length : ℚ)) ∧
    |(feed margin Stats.init xs).M2 / (xs.length : ℚ)
        - sq_dev (sumQ xs / (xs.length : ℚ)) xs / (xs.length : ℚ)|
      ≤ 256 * (xs.length : ℚ) * β ^ 2 / 2 ^ 53 ∧
    |fl64 ((feed margin Stats.init xs).M2 / (xs.length : ℚ))
        - sq_dev (sumQ xs / (xs.length : ℚ)) xs / (xs.length : ℚ)|
      ≤ (256 * (xs.length : ℚ) + 6) * β ^ 2 / 2 ^ 53 ∧
    ((feed 0 Stats.init [400000001, 400000002, 400000003]).mean = 400000002 ∧
      (feed 0 Stats.init [400000001, 400000002, 400000003]).M2 = 2) := by
  have h53 : (2 : ℚ) ^ 53 = 9007199254740992 := by norm_num
  have hk : xs.length ≤ 2147483648 := by
    have : (2 : Nat) ^ 31 = 2147483648 := by norm_num
    omega
  have hk0 : (0 : ℚ) < (xs.length : ℚ) := by
    have : 0 < xs.length := List.length_pos.mpr hne
    exact_mod_cast this
  have hkQ : (xs.length : ℚ) ≤ 2147483648 := by exact_mod_cast hk
  have hβ0 : (0 : ℚ) ≤ β := by linarith only [hβ]
  have hB0 : (0 : ℚ) ≤ β ^ 2 := by positivity
  have hB1 : (1 : ℚ) ≤ β ^ 2 := by nlinarith only [hβ]
  -- the reading over the rationals
  obtain ⟨hex1, hex2⟩ := welford_run_exact xs
  have hmean : (welford_run id 0 (0, 0) xs).1 = sumQ xs / (xs.length : ℚ) := by
    rw [← hex1]
    field_simp
  have hexact : welford_run id 0 (0, 0) xs
      = (sumQ xs / (xs.length : ℚ), sq_dev (sumQ xs / (xs.length : ℚ)) xs) := by
    rw [← hmean, ← hex2]
  -- the program
  have hlink : ((feed margin Stats.init xs).mean, (feed margin Stats.init xs).M2)
      = welford_run fl64 0 (0, 0) xs := feed_welford_run margin xs Stats.init
  have hm1 : (feed margin Stats.init xs).mean = (welford_run fl64 0 (0, 0) xs).1 :=
    congrArg Prod.fst hlink
  have hm2 : (feed margin Stats.init xs).M2 = (welford_run fl64 0 (0, 0) xs).2 :=
    congrArg Prod.snd hlink
  obtain ⟨he, hE⟩ := welford_run_err fl64 fl64_err_num β hβ xs hk hx
  rw [← hm1, hexact] at he
  rw [← hm2, hexact] at hE
  have ht : (feed margin Stats.init xs).total = (xs.length : Int) := by
    rw [feed_total]
    simp [Stats.init]
  have hcast : (((xs.length : Int)) : ℚ) = (xs.length : ℚ) := by push_cast; rfl
  -- the quotient
  have hT := (sq_dev_bounds β (sumQ xs / (xs.length : ℚ))
    (by rw [← hmean]; exact exact_mean_bound β hβ0 xs hx) xs hx).2
  have hquot : |(feed margin Stats.init xs).M2 / (xs.length : ℚ)
      - sq_dev (sumQ xs / (xs.length : ℚ)) xs / (xs.length : ℚ)|
      ≤ 256 * (xs.length : ℚ) * β ^ 2 / 9007199254740992 := by
    rw [← sub_div, abs_div, abs_of_pos hk0, div_le_iff₀ hk0]
    refine le_trans hE (le_of_eq ?_)
    ring
  have hTq : sq_dev (sumQ xs / (xs.length : ℚ)) xs / (xs.length : ℚ) ≤ 4 * β ^ 2 := by
    rw [div_le_iff₀ hk0]
    exact hT
  have hTq0 : 0 ≤ sq_dev (sumQ xs / (xs.length : ℚ)) xs / (xs.length : ℚ) :=
    div_nonneg (sq_dev_bounds β (sumQ xs / (xs.length : ℚ))
      (by rw [← hmean]; exact exact_mean_bound β hβ0 xs hx) xs hx).1 (le_of_lt hk0)
  have hBk : β ^ 2 * (xs.length : ℚ) ≤ β ^ 2 * 2147483648 :=
    mul_le_mul_of_nonneg_left hkQ hB0
  have hvb : |(feed margin Stats.init xs).M2 / (xs.length : ℚ)| ≤ 5 * β ^ 2 := by
    have h1 : |(feed margin Stats.init xs).M2 / (xs.length : ℚ)|
        ≤ |(feed margin Stats.init xs).M2 / (xs.length : ℚ)
            - sq_dev (sumQ xs / (xs.length : ℚ)) xs / (xs.length : ℚ)|
          + |sq_dev (sumQ xs / (xs.length : ℚ)) xs / (xs.length : ℚ)| := by
      have := abs_add ((feed margin Stats.init xs).M2 / (xs.length : ℚ)
        - sq_dev (sumQ xs / (xs.length : ℚ)) xs / (xs.length : ℚ))
        (sq_dev (sumQ xs / (xs.length : ℚ)) xs / (xs.length : ℚ))
      simpa using this
    rw [abs_of_nonneg hTq0] at h1
    linarith only [h1, hquot, hTq, hBk, hB0]
  have hround : |fl64 ((feed margin Stats.init xs).M2 / (xs.length : ℚ))
      - sq_dev (sumQ xs / (xs.length : ℚ)) xs / (xs.length : ℚ)|
      ≤ (256 * (xs.length : ℚ) + 6) * β ^ 2 / 9007199254740992 := by
    have h1 := (fl_bound fl64 fl64_err_num _ _ hvb).1
    have h2 : fl64 ((feed margin Stats.init xs).M2 / (xs.length : ℚ))
        - sq_dev (sumQ xs / (xs.length : ℚ)) xs / (xs.length : ℚ)
        = (fl64 ((feed margin Stats.init xs).M2 / (xs.length : ℚ))
            - (feed margin Stats.init xs).M2 / (xs.length : ℚ))
          + ((feed margin Stats.init xs).M2 / (xs.length : ℚ)
            - sq_dev (sumQ xs / (xs.length : ℚ)) xs / (xs.length : ℚ)) := by ring
    rw [h2]
    refine le_trans (abs_add _ _) ?_
    linarith only [h1, hquot, hB1]
  rw [h53]
  refine ⟨ht, hexact, hlink, ?_, ?_, ?_, hquot, hround, by decide!, by decide!⟩
  · refine le_trans he (le_of_eq ?_)
    ring
  · refine le_trans hE (le_of_eq ?_)
    ring
  · unfold print_stats ddiv
    dsimp only
    rw [ht, hcast, if_neg (ne_of_gt hk0)]

/-- The offsets `[10, -20, 30, -1000000, 40]`, at most `1000000` in absolute
value: five events, the program's `mean` is `-199988` and its `M2` is
`6553796626677759 / 8192`, that is `800024002280 - 2^-13`, where the sum of
the squared deviations is `800024002280`. -/
theorem welford_correct_witness :
    ([10, -20, 30, -1000000, 40] : List Int) ≠ [] ∧
    ([10, -20, 30, -1000000, 40] : List Int).length < 2 ^ 31 ∧
    ((1 : ℚ) ≤ 1000000) ∧
    (∀ x ∈ ([10, -20, 30, -1000000, 40] : List Int), |(x : ℚ)| ≤ 1000000) ∧
    (feed 500 Stats.init [10, -20, 30, -1000000, 40]).total = 5 ∧
    welford_run id 0 (0, 0) [10, -20, 30, -1000000, 40] = (-199988, 800024002280) ∧
    (feed 500 Stats.init [10, -20, 30, -1000000, 40]).mean = -199988 ∧
    (feed 500 Stats.init [10, -20, 30, -1000000, 40]).M2 = 6553796626677759 / 8192 ∧
    |(feed 500 Stats.init [10, -20, 30, -1000000, 40]).M2 - 800024002280|
      ≤ 256 * 5 ^ 2 * 1000000 ^ 2 / 2 ^ 53 := by
  have hx : ∀ x ∈ ([10, -20, 30, -1000000, 40] : List Int), |(x : ℚ)| ≤ 1000000 := by
    intro x hx
    simp only [List.mem_cons, List.mem_singleton, List.not_mem_nil, or_false] at hx
    rcases hx with rfl | rfl | rfl | rfl | rfl <;> norm_num [abs_le]
  obtain ⟨h1, h2, _, _, h5, _⟩ :=
    welford_correct 500 1000000 [10, -20, 30, -1000000, 40] (by decide) (by decide)
      (by norm_num) hx
  have hs : sumQ [10, -20, 30, -1000000, 40]
      / (([10, -20, 30, -1000000, 40] : List Int).length : ℚ) = -199988 := by
    norm_num [sumQ]
  have hq : sq_dev (-199988) [10, -20, 30, -1000000, 40] = 800024002280 := by
    norm_num [sq_dev]
  rw [hs, hq] at h2 h5
  refine ⟨by decide, by decide, by norm_num, hx, ?_, h2, by decide!, by decide!, ?_⟩
  · rw [h1]
    rfl
  · have hlen : ((([10, -20, 30, -1000000, 40] : List Int).length : ℕ) : ℚ) = 5 := by
      norm_num
    rw [hlen] at h5
    exact h5

/-! ### One call of fetch_source -/

theorem fetch_source_ok (K : Timepps) (mode : Nat) (margin : Int) (st : Stats)
    (avail_mode : Nat) (f : FetchOutcome) (h : 0 ≤ f.ret) :
    (fetch_source K mode margin st avail_mode f).stats
      = (tally margin st (offset_of K mode f)).1 := by
  unfold fetch_source offset_of
  rw [if_neg (not_lt.mpr h)]

theorem fetch_source_fail (K : Timepps) (mode : Nat) (margin : Int) (st : Stats)
    (avail_mode : Nat) (f : FetchOutcome) (h : f.ret < 0) :
    (fetch_source K mode margin st avail_mode f).ret = -1 ∧
    (fetch_source K mode margin st avail_mode f).stats = st ∧
    (fetch_source K mode margin st avail_mode f).line = none ∧
    (fetch_source K mode margin st avail_mode f).errno = f.errno := by
  unfold fetch_source
  rw [if_pos h]
  split_ifs <;> exact ⟨rfl, rfl, rfl, rfl⟩

theorem run_nil (K : Timepps) (mode : Nat) (margin : Int) (avail_mode : Nat)
    (st : Stats) : run K mode margin avail_mode st [] = st := rfl

theorem run_cons (K : Timepps) (mode : Nat) (margin : Int) (avail_mode : Nat)
    (st : Stats) (f : FetchOutcome) (fs : List FetchOutcome) :
    run K mode margin avail_mode st (f :: fs)
      = run K mode margin avail_mode (fetch_source K mode margin st avail_mode f).stats fs :=
  rfl

theorem run_append (K : Timepps) (mode : Nat) (margin : Int) (avail_mode : Nat)
    (st : Stats) (fs gs : List FetchOutcome) :
    run K mode margin avail_mode st (fs ++ gs)
      = run K mode margin avail_mode (run K mode margin avail_mode st fs) gs := by
  unfold run
  rw [List.foldl_append]

/-- A run of successful fetches is the run of lines 137-156 over their offsets. -/
theorem run_events (K : Timepps) (mode : Nat) (margin : Int) (avail_mode : Nat)
    (fs : List FetchOutcome) :
    ∀ st : Stats, (∀ f ∈ fs, 0 ≤ f.ret) →
      run K mode margin avail_mode st fs = feed margin st (fs.map (offset_of K mode)) := by
  induction fs with
  | nil => intro st _; rfl
  | cons f fs ih =>
    intro st h
    rw [run_cons, List.map_cons, feed_cons,
      fetch_source_ok K mode margin st avail_mode f (h f (List.mem_cons_self f fs))]
    exact ih _ (fun g hg => h g (List.mem_cons_of_mem f hg))

/-! ### Maximum divergence -/

theorem int_of_long_of_range (x : Int) (h0 : -2147483648 ≤ x) (h1 : x < 2147483648) :
    int_of_long x = x := by
  unfold int_of_long
  omega

theorem tally_max_divergence (margin : Int) (st : Stats) (x : Int)
    (h0 : -500000000 < x) (h1 : x ≤ 500000000) :
    (tally margin st x).1.max_divergence = max st.max_divergence |x| := by
  have habs : (if x < 0 then -x else x) = |x| := by
    split_ifs with hx
    · exact (abs_of_neg hx).symm
    · exact (abs_of_nonneg (not_lt.mp hx)).symm
  have hr : int_of_long |x| = |x| := by
    apply int_of_long_of_range
    · have := abs_nonneg x
      omega
    · rw [abs_lt]
      constructor <;> omega
  have hmd : (tally margin st x).1.max_divergence
      = if st.max_divergence < (if x < 0 then -x else x)
        then int_of_long (if x < 0 then -x else x) else st.max_divergence := by
    unfold tally
    dsimp only
    split_ifs <;> rfl
  rw [hmd, habs, hr]
  by_cases h : st.max_divergence < |x|
  · rw [if_pos h, max_eq_right (le_of_lt h)]
  · rw [if_neg h, max_eq_left (not_lt.mp h)]

theorem max_abs_nonneg (xs : List Int) : 0 ≤ max_abs xs := by
  cases xs with
  | nil => exact le_refl 0
  | cons x xs => exact le_trans (abs_nonneg x) (le_max_left _ _)

theorem max_abs_snoc (xs : List Int) (x : Int) :
    max_abs (xs ++ [x]) = max (max_abs xs) |x| := by
  induction xs with
  | nil =>
    show max |x| 0 = max 0 |x|
    exact max_comm _ _
  | cons y ys ih =>
    show max |y| (max_abs (ys ++ [x])) = max (max |y| (max_abs ys)) |x|
    rw [ih, max_assoc]

/-- C4: for every sequence of normalised offsets processed from the initial
state, whatever the margin (zero included), `max_divergence` is the maximum of
the `|offset_i|` (`0` for the empty sequence), and one more event, from any
state, never decreases `max_divergence`. -/
theorem max_divergence_spec (margin : Int) (xs : List Int)
    (hx : ∀ x ∈ xs, -500000000 < x ∧ x ≤ 500000000) :
    (feed margin Stats.init xs).max_divergence = max_abs xs ∧
    (feed margin Stats.init []).max_divergence = 0 ∧
    (∀ (st : Stats) (x : Int), -500000000 < x → x ≤ 500000000 →
      st.max_divergence ≤ (tally margin st x).1.max_divergence) ∧
    (∀ x : Int, -500000000 < x → x ≤ 500000000 →
      (feed margin Stats.init xs).max_divergence
        ≤ (feed margin Stats.init (xs ++ [x])).max_divergence) := by
  have hstep : ∀ (st : Stats) (x : Int), -500000000 < x → x ≤ 500000000 →
      st.max_divergence ≤ (tally margin st x).1.max_divergence := by
    intro st x h0 h1
    rw [tally_max_divergence margin st x h0 h1]
    exact le_max_left _ _
  refine ⟨?_, rfl, hstep, ?_⟩
  · induction xs using List.reverseRecOn with
    | nil => rfl
    | append_singleton ys y ih =>
      have hy := hx y (by simp)
      rw [feed_snoc, tally_max_divergence margin _ y hy.1 hy.2, max_abs_snoc,
        ih (fun z hz => hx z (by simp [hz]))]
  · intro x h0 h1
    rw [feed_snoc]
    exact hstep _ x h0 h1

/-- The offsets `[10, -20, 30, -1000000, 40]` with margin `0`: the maximum
divergence is `1000000`. -/
theorem max_divergence_spec_witness :
    (∀ x ∈ ([10, -20, 30, -1000000, 40] : List Int), -500000000 < x ∧ x ≤ 500000000) ∧
    (feed 0 Stats.init [10, -20, 30, -1000000, 40]).max_divergence = 1000000 ∧
    (feed 0 Stats.init [10, -20, 30, -1000000, 40]).max_divergence
      ≤ (feed 0 Stats.init ([10, -20, 30, -1000000, 40] ++ [-2000000])).max_divergence := by
  have h := max_divergence_spec 0 [10, -20, 30, -1000000, 40] (by decide)
  refine ⟨by decide, ?_, ?_⟩
  · rw [h.1]
    decide
  · exact h.2.2.2 (-2000000) (by decide) (by decide)

/-! ### Overflow and streak counters -/

theorem abs_eq_ite (x : Int) : (if x < 0 then -x else x) = |x| := by
  split_ifs with hx
  · exact (abs_of_neg hx).symm
  · exact (abs_of_nonneg (not_lt.mp hx)).symm

theorem tally_over (margin : Int) (st : Stats) (x : Int) (h : margin ≤ |x|) :
    (tally margin st x).1.overflows = st.overflows + 1 ∧
    (tally margin st x).1.curr_unsync = st.curr_unsync + 1 ∧
    (tally margin st x).1.max_unsync = st.max_unsync ∧
    (tally margin st x).2 = true := by
  have h2 : (if x < 0 then -x else x) ≥ margin := by
    rw [abs_eq_ite]
    exact h
  unfold tally
  dsimp only
  rw [if_pos h2]
  exact ⟨rfl, rfl, rfl, rfl⟩

theorem tally_within (margin : Int) (st : Stats) (x : Int) (h : |x| < margin) :
    (tally margin st x).1.overflows = st.overflows ∧
    (tally margin st x).1.curr_unsync = 0 ∧
    (tally margin st x).1.max_unsync = max st.max_unsync st.curr_unsync ∧
    (tally margin st x).2 = false := by
  have h2 : ¬ (if x < 0 then -x else x) ≥ margin := by
    rw [abs_eq_ite]
    exact not_le.mpr h
  unfold tally
  dsimp only
  rw [if_neg h2]
  refine ⟨rfl, rfl, ?_, rfl⟩
  dsimp only
  by_cases hc : st.max_unsync < st.curr_unsync
  · rw [if_pos hc, max_eq_right (le_of_lt hc)]
  · rw [if_neg hc, max_eq_left (not_lt.mp hc)]

theorem leading_run_le_longest_run (bs : List Bool) : leading_run bs ≤ longest_run bs := by
  cases bs with
  | nil => exact le_refl 0
  | cons b bs => exact le_max_left _ _

/-- The streak counters along a run of lines 137-156: the larger of `max_unsync`
and `curr_unsync` is the longest run of over-margin events, the run that
extends the streak open at the start included. -/
theorem feed_streak (margin : Int) (xs : List Int) :
    ∀ st : Stats, 0 ≤ st.max_unsync → 0 ≤ st.curr_unsync →
      max (feed margin st xs).max_unsync (feed margin st xs).curr_unsync
        = max (max st.max_unsync
                (st.curr_unsync + (leading_run (xs.map (over_margin margin)) : Int)))
              ((longest_run (xs.map (over_margin margin)) : Nat) : Int) := by
  induction xs with
  | nil =>
    intro st h0 h1
    simp only [feed_nil, List.map_nil, leading_run, longest_run]
    have : 0 ≤ max st.max_unsync st.curr_unsync := le_trans h0 (le_max_left _ _)
    simp [this]
  | cons x xs ih =>
    intro st h0 h1
    rw [feed_cons]
    by_cases h : margin ≤ |x|
    · obtain ⟨_, hc, hmu, _⟩ := tally_over margin st x h
      have hb : over_margin margin x = true := by
        unfold over_margin
        exact decide_eq_true h
      rw [ih (tally margin st x).1 (by rw [hmu]; exact h0) (by rw [hc]; omega), hc, hmu,
        List.map_cons, hb]
      simp only [leading_run, longest_run]
      push_cast
      have hl := leading_run_le_longest_run (xs.map (over_margin margin))
      omega
    · obtain ⟨_, hc, hmu, _⟩ := tally_within margin st x (not_le.mp h)
      have hb : over_margin margin x = false := by
        unfold over_margin
        exact decide_eq_false h
      rw [ih (tally margin st x).1 (by rw [hmu]; exact le_trans h0 (le_max_left _ _))
        (by rw [hc]), hc, hmu, List.map_cons, hb]
      simp only [leading_run, longest_run]
      push_cast
      have hl := leading_run_le_longest_run (xs.map (over_margin margin))
      omega

/-- From the initial state, the larger of `max_unsync` and `curr_unsync` is the
length of the longest run of over-margin events, open or closed. -/
theorem feed_streak_init (margin : Int) (xs : List Int) :
    max (feed margin Stats.init xs).max_unsync (feed margin Stats.init xs).curr_unsync
      = ((longest_run (xs.map (over_margin margin)) : Nat) : Int) := by
  rw [feed_streak margin xs Stats.init (le_refl 0) (le_refl 0)]
  have hl := leading_run_le_longest_run (xs.map (over_margin margin))
  simp only [Stats.init]
  omega

/-- C3, at an input where the code departs from it: with margin `500`, the
events of offsets `10`, `1000`, `2000` end in an open streak of two over-margin
events; `print_stats` reports a maximum unsynchronized time of `0`, the open
streak staying in `curr_unsync`, while the longest run has length `2`. -/
theorem open_streak_unreported :
    (print_stats 500 (run linux_pps 2 500 256 Stats.init
      [pulse 1 10 1, pulse 2 1000 2, pulse 3 2000 3])).max_unsync = some 0 ∧
    (run linux_pps 2 500 256 Stats.init
      [pulse 1 10 1, pulse 2 1000 2, pulse 3 2000 3]).curr_unsync = 2 ∧
    [pulse 1 10 1, pulse 2 1000 2, pulse 3 2000 3].map (offset_of linux_pps 2)
      = [10, 1000, 2000] ∧
    longest_run ([pulse 1 10 1, pulse 2 1000 2, pulse 3 2000 3].map
      (fun f => over_margin 500 (offset_of linux_pps 2 f))) = 2 := by
  decide

/-- C5: an offset is counted as an overflow (`overflows` and `curr_unsync` each
incremented by one) exactly when `|offset| ≥ margin`, for every margin and so
for every margin `> 0`; an offset with `|offset| = margin` is an overflow, one
with `|offset| = margin - 1` is not (`overflows` unchanged, `curr_unsync` reset
to zero).  The offsets `[10, -20, 30, -1000000, 40]` with margin `500` give
`total = 5`, `overflows = 1`, `max_divergence = 1000000`, `max_unsync = 1`, the
fourth event alone being over margin; the same holds of five fetched
timestamps carrying these offsets, whose only line is that of the fourth. -/
theorem margin_boundary (margin : Int) (st : Stats) (x : Int) :
    (((tally margin st x).1.overflows = st.overflows + 1 ∧
        (tally margin st x).1.curr_unsync = st.curr_unsync + 1) ↔ margin ≤ |x|) ∧
    (|x| < margin →
      (tally margin st x).1.overflows = st.overflows ∧
        (tally margin st x).1.curr_unsync = 0) ∧
    (|x| = margin →
      (tally margin st x).1.overflows = st.overflows + 1 ∧
        (tally margin st x).1.curr_unsync = st.curr_unsync + 1) ∧
    (|x| = margin - 1 →
      (tally margin st x).1.overflows = st.overflows ∧
        (tally margin st x).1.curr_unsync = 0) ∧
    ((feed 500 Stats.init [10, -20, 30, -1000000, 40]).total = 5 ∧
      (feed 500 Stats.init [10, -20, 30, -1000000, 40]).overflows = 1 ∧
      (feed 500 Stats.init [10, -20, 30, -1000000, 40]).max_divergence = 1000000 ∧
      (feed 500 Stats.init [10, -20, 30, -1000000, 40]).max_unsync = 1 ∧
      feed_lines 500 Stats.init [10, -20, 30, -1000000, 40]
        = [false, false, false, true, false]) ∧
    ([pulse 0 10 1, pulse 1 999999980 2, pulse 3 30 3, pulse 3 999000000 4,
        pulse 5 40 5].map (offset_of linux_pps 2) = [10, -20, 30, -1000000, 40] ∧
      run_lines linux_pps 2 500 256 Stats.init
          [pulse 0 10 1, pulse 1 999999980 2, pulse 3 30 3, pulse 3 999000000 4,
            pulse 5 40 5]
        = [none, none, none, some { timestamp := 4, sequence := 4, offset := -1000000 },
            none] ∧
      (print_stats 500 (run linux_pps 2 500 256 Stats.init
          [pulse 0 10 1, pulse 1 999999980 2, pulse 3 30 3, pulse 3 999000000 4,
            pulse 5 40 5])).total = 5 ∧
      (print_stats 500 (run linux_pps 2 500 256 Stats.init
          [pulse 0 10 1, pulse 1 999999980 2, pulse 3 30 3, pulse 3 999000000 4,
            pulse 5 40 5])).max_unsync = some 1 ∧
      (print_stats 500 (run linux_pps 2 500 256 Stats.init
          [pulse 0 10 1, pulse 1 999999980 2, pulse 3 30 3, pulse 3 999000000 4,
            pulse 5 40 5])).max_divergence = 1000000) := by
  refine ⟨⟨?_, ?_⟩, ?_, ?_, ?_, by decide, by decide⟩
  · intro h
    by_contra hn
    have hw := (tally_within margin st x (not_le.mp hn)).1
    rw [hw] at h
    omega
  · intro h
    exact ⟨(tally_over margin st x h).1, (tally_over margin st x h).2.1⟩
  · intro h
    exact ⟨(tally_within margin st x h).1, (tally_within margin st x h).2.1⟩
  · intro h
    have h2 : margin ≤ |x| := le_of_eq h.symm
    exact ⟨(tally_over margin st x h2).1, (tally_over margin st x h2).2.1⟩
  · intro h
    have h2 : |x| < margin := by omega
    exact ⟨(tally_within margin st x h2).1, (tally_within margin st x h2).2.1⟩

/-- Margin `500` from a state with an open streak of three: the offset `-500`
is an overflow, the offset `499` is not. -/
theorem margin_boundary_witness :
    ((0 : Int) < 500) ∧
    (|(-500 : Int)| = 500) ∧ (|(499 : Int)| = 500 - 1) ∧
    ((tally 500 ⟨7, 4, 1, 900, 0, 0, 3⟩ (-500)).1.overflows = 4 + 1 ∧
      (tally 500 ⟨7, 4, 1, 900, 0, 0, 3⟩ (-500)).1.curr_unsync = 3 + 1) ∧
    ((tally 500 ⟨7, 4, 1, 900, 0, 0, 3⟩ 499).1.overflows = 4 ∧
      (tally 500 ⟨7, 4, 1, 900, 0, 0, 3⟩ 499).1.curr_unsync = 0) :=
  ⟨by decide, by decide, by decide,
    (margin_boundary 500 ⟨7, 4, 1, 900, 0, 0, 3⟩ (-500)).2.2.1 (by decide),
    (margin_boundary 500 ⟨7, 4, 1, 900, 0, 0, 3⟩ 499).2.2.2.1 (by decide)⟩

/-! ### The final report -/

/-- C6 as stated fails: with no event processed the report still evaluates
`M2 / total` with the divisor `0` (twice over when a margin is set, the
overflow percentage being divided by `total` as well). -/
theorem zero_event_division_unguarded :
    Stats.init.total = 0 ∧
    (0 : Int) ∈ (print_stats 0 Stats.init).divisors ∧
    (print_stats 0 Stats.init).variance = none ∧
    (print_stats 500 Stats.init).divisors = [0, 0] := by
  decide

/-- C6, amended: when `print_stats` runs with `total = 0` the report shows a
total of zero events; nothing tests `total`: the division `M2 / total` is
evaluated with the divisor `0` (its result is not a number), and so is the
overflow percentage `overflows / total` exactly when `margin ≠ 0`, the only
gate of that line. -/
theorem zero_event_report (margin : Int) (st : Stats) (h : st.total = 0) :
    (print_stats margin st).total = 0 ∧
    (print_stats margin st).variance = none ∧
    (print_stats margin st).divisors = (if margin ≠ 0 then [0, 0] else [0]) ∧
    (margin ≠ 0 → (print_stats margin st).overflows = some (st.overflows, none)) ∧
    (margin = 0 → (print_stats margin st).overflows = none) := by
  unfold print_stats ddiv
  dsimp only
  rw [h]
  refine ⟨rfl, by simp, ?_, ?_, ?_⟩
  · by_cases hm : margin = 0 <;> simp [hm]
  · intro hm
    simp [hm]
  · intro hm
    simp [hm]

/-- The report of the initial state with margin `500`. -/
theorem zero_event_report_witness :
    Stats.init.total = 0 ∧
    (print_stats 500 Stats.init).total = 0 ∧
    (print_stats 500 Stats.init).variance = none ∧
    (print_stats 500 Stats.init).divisors = [0, 0] ∧
    (print_stats 500 Stats.init).overflows = some (0, none) := by
  obtain ⟨h1, h2, h3, h4, _⟩ := zero_event_report 500 Stats.init rfl
  exact ⟨rfl, h1, h2, h3, h4 (by decide)⟩

/-! ### Failed fetches and the acquisition loop -/

theorem fetch_source_ret_ok (K : Timepps) (mode : Nat) (margin : Int) (st : Stats)
    (avail_mode : Nat) (f : FetchOutcome) (h : 0 ≤ f.ret) :
    (fetch_source K mode margin st avail_mode f).ret = 0 := by
  unfold fetch_source
  rw [if_neg (not_lt.mpr h)]

/-- Events and timeouts are passed over by the loop of `main`. -/
theorem main_loop_append (K : Timepps) (mode : Nat) (margin : Int) (avail_mode : Nat)
    (pre : List FetchOutcome) :
    ∀ (st : Stats) (gs : List FetchOutcome), (∀ f ∈ pre, is_event f ∨ is_timeout f) →
      main_loop K mode margin avail_mode st (pre ++ gs)
        = main_loop K mode margin avail_mode (run K mode margin avail_mode st pre) gs := by
  induction pre with
  | nil => intro st gs _; rfl
  | cons f fs ih =>
    intro st gs h
    have hrest : ∀ g ∈ fs, is_event g ∨ is_timeout g :=
      fun g hg => h g (List.mem_cons_of_mem f hg)
    rw [List.cons_append, run_cons]
    rw [← ih _ gs hrest]
    rcases h f (List.mem_cons_self f fs) with he | ht
    · have hr := fetch_source_ret_ok K mode margin st avail_mode f he
      rw [main_loop, hr]
      simp
    · obtain ⟨hr, _, _, herr⟩ := fetch_source_fail K mode margin st avail_mode f ht.1
      rw [main_loop, hr, herr, ht.2]
      simp [ETIMEDOUT, EINTR]

/-- C7: a call of `fetch_source` whose fetch fails returns `-1` and leaves the
statistic variables (`total`, `overflows`, `max_unsync`, `max_divergence`,
`mean`, `M2`, `curr_unsync`) unchanged; so the statistics after any sequence
of fetch outcomes are those after its successful events alone, in the same
order, and the loop of `main` that met only events and timeouts holds exactly
the statistics of the events. -/
theorem failed_fetch_frame (K : Timepps) (mode : Nat) (margin : Int) (avail_mode : Nat)
    (st : Stats) (fs : List FetchOutcome) :
    (∀ f : FetchOutcome, f.ret < 0 →
      (fetch_source K mode margin st avail_mode f).ret = -1 ∧
        (fetch_source K mode margin st avail_mode f).stats = st) ∧
    run K mode margin avail_mode st fs
      = run K mode margin avail_mode st (fs.filter FetchOutcome.ok) ∧
    ((∀ f ∈ fs, is_event f ∨ is_timeout f) →
      main_loop K mode margin avail_mode st fs
        = LoopState.running
            (run K mode margin avail_mode st (fs.filter FetchOutcome.ok))) := by
  have hfilter : ∀ (gs : List FetchOutcome) (s : Stats),
      run K mode margin avail_mode s gs
        = run K mode margin avail_mode s (gs.filter FetchOutcome.ok) := by
    intro gs
    induction gs with
    | nil => intro s; rfl
    | cons g gs ih =>
      intro s
      by_cases hg : 0 ≤ g.ret
      · have hok : FetchOutcome.ok g = true := decide_eq_true hg
        rw [List.filter_cons_of_pos hok, run_cons, run_cons, ih]
      · have hok : ¬ FetchOutcome.ok g = true := by
          unfold FetchOutcome.ok
          simp [hg]
        rw [List.filter_cons_of_neg hok, run_cons,
          (fetch_source_fail K mode margin s avail_mode g (not_le.mp hg)).2.1, ih]
  refine ⟨?_, hfilter fs st, ?_⟩
  · intro f hf
    exact ⟨(fetch_source_fail K mode margin st avail_mode f hf).1,
      (fetch_source_fail K mode margin st avail_mode f hf).2.1⟩
  · intro h
    have hl := main_loop_append K mode margin avail_mode fs st [] h
    rw [List.append_nil] at hl
    rw [hl, ← hfilter fs st]
    rfl

/-- Two events with a timeout and an interruption in between. -/
theorem failed_fetch_frame_witness :
    ((failure ETIMEDOUT).ret < 0) ∧
    ((fetch_source linux_pps 2 500 (feed 500 Stats.init [10]) 256 (failure ETIMEDOUT)).ret = -1 ∧
      (fetch_source linux_pps 2 500 (feed 500 Stats.init [10]) 256 (failure ETIMEDOUT)).stats
        = feed 500 Stats.init [10]) ∧
    (run linux_pps 2 500 256 Stats.init
        [pulse 1 10 1, failure ETIMEDOUT, failure EINTR, pulse 4 999999000 2]
      = run linux_pps 2 500 256 Stats.init [pulse 1 10 1, pulse 4 999999000 2]) ∧
    (∀ f ∈ [pulse 1 10 1, failure ETIMEDOUT, pulse 4 999999000 2],
      is_event f ∨ is_timeout f) ∧
    (main_loop linux_pps 2 500 256 Stats.init
        [pulse 1 10 1, failure ETIMEDOUT, pulse 4 999999000 2]
      = LoopState.running
          (run linux_pps 2 500 256 Stats.init [pulse 1 10 1, pulse 4 999999000 2])) :=
  ⟨by decide,
    (failed_fetch_frame linux_pps 2 500 256 (feed 500 Stats.init [10]) []).1
      (failure ETIMEDOUT) (by decide),
    (failed_fetch_frame linux_pps 2 500 256 Stats.init
      [pulse 1 10 1, failure ETIMEDOUT, failure EINTR, pulse 4 999999000 2]).2.1,
    by decide,
    (failed_fetch_frame linux_pps 2 500 256 Stats.init
      [pulse 1 10 1, failure ETIMEDOUT, pulse 4 999999000 2]).2.2 (by decide)⟩

/-- C8 as stated fails: with `margin = 0` an event of offset `10` gets its
line, and is counted as an overflow. -/
theorem zero_margin_line_printed :
    (fetch_source linux_pps 2 0 Stats.init 256 (pulse 5 10 1)).line
      = some { timestamp := 5, sequence := 1, offset := 10 } ∧
    (fetch_source linux_pps 2 0 Stats.init 256 (pulse 5 10 1)).stats.overflows = 1 ∧
    ¬ ((fetch_source linux_pps 2 0 Stats.init 256 (pulse 5 10 1)).line ≠ none →
        (0 : Int) < 0 ∧ (0 : Int) ≤ |offset_of linux_pps 2 (pulse 5 10 1)|) := by
  decide

/-- C8, amended: `fetch_source` prints the line of an event (timestamp,
sequence, offset) exactly when the fetch succeeded and `|offset| ≥ margin`,
without testing `margin > 0`; with `margin = 0` every event gets its line; the
gate on the margin is in `print_stats`, which leaves out the overflow count and
the maximum unsynchronized time when `margin = 0` and prints them when
`margin ≠ 0`.  An event that gets its
line is counted, `overflows` and `curr_unsync` being incremented by one, also
with `margin = 0`; an event that gets none leaves `overflows` unchanged and
resets `curr_unsync` to zero. -/
theorem overflow_line_iff (K : Timepps) (mode : Nat) (margin : Int) (st : Stats)
    (avail_mode : Nat) (f : FetchOutcome) :
    (fetch_source K mode margin st avail_mode f).line
      = (if 0 ≤ f.ret ∧ margin ≤ |offset_of K mode f| then
          some { timestamp := (normalize (select_edge K mode f.infobuf).1).tv_sec,
                 sequence := (select_edge K mode f.infobuf).2,
                 offset := offset_of K mode f }
        else none) ∧
    (margin = 0 → 0 ≤ f.ret → (fetch_source K mode margin st avail_mode f).line ≠ none) ∧
    (print_stats 0 st).overflows = none ∧
    (print_stats 0 st).max_unsync = none ∧
    ((fetch_source K mode margin st avail_mode f).line ≠ none →
      (fetch_source K mode margin st avail_mode f).stats.overflows = st.overflows + 1 ∧
      (fetch_source K mode margin st avail_mode f).stats.curr_unsync
        = st.curr_unsync + 1) ∧
    (0 ≤ f.ret → (fetch_source K mode margin st avail_mode f).line = none →
      (fetch_source K mode margin st avail_mode f).stats.overflows = st.overflows ∧
      (fetch_source K mode margin st avail_mode f).stats.curr_unsync = 0) ∧
    (margin = 0 → 0 ≤ f.ret →
      (fetch_source K mode margin st avail_mode f).stats.overflows = st.overflows + 1 ∧
      (fetch_source K mode margin st avail_mode f).stats.curr_unsync
        = st.curr_unsync + 1) ∧
    (margin ≠ 0 →
      (print_stats margin st).overflows
        = some (st.overflows, ddiv (100 * (st.overflows : ℚ)) (st.total : ℚ)) ∧
      (print_stats margin st).max_unsync = some st.max_unsync) := by
  have hline : (fetch_source K mode margin st avail_mode f).line
      = (if 0 ≤ f.ret ∧ margin ≤ |offset_of K mode f| then
          some { timestamp := (normalize (select_edge K mode f.infobuf).1).tv_sec,
                 sequence := (select_edge K mode f.infobuf).2,
                 offset := offset_of K mode f }
        else none) := by
    by_cases hr : 0 ≤ f.ret
    · have hfs : (fetch_source K mode margin st avail_mode f).line
          = if (tally margin st (offset_of K mode f)).2 then
              some { timestamp := (normalize (select_edge K mode f.infobuf).1).tv_sec,
                     sequence := (select_edge K mode f.infobuf).2,
                     offset := offset_of K mode f }
            else none := by
        unfold fetch_source offset_of
        rw [if_neg (not_lt.mpr hr)]
      rw [hfs]
      by_cases hm : margin ≤ |offset_of K mode f|
      · rw [(tally_over margin st _ hm).2.2.2, if_pos (And.intro hr hm)]
        rfl
      · have hc : ¬ (0 ≤ f.ret ∧ margin ≤ |offset_of K mode f|) := fun h => hm h.2
        rw [(tally_within margin st _ (not_le.mp hm)).2.2.2, if_neg hc]
        rfl
    · have hc : ¬ (0 ≤ f.ret ∧ margin ≤ |offset_of K mode f|) := fun h => hr h.1
      rw [(fetch_source_fail K mode margin st avail_mode f (not_le.mp hr)).2.2.1,
        if_neg hc]
  have hcount : 0 ≤ f.ret → margin ≤ |offset_of K mode f| →
      (fetch_source K mode margin st avail_mode f).stats.overflows = st.overflows + 1 ∧
      (fetch_source K mode margin st avail_mode f).stats.curr_unsync
        = st.curr_unsync + 1 := by
    intro hr hm
    rw [fetch_source_ok K mode margin st avail_mode f hr]
    exact ⟨(tally_over margin st _ hm).1, (tally_over margin st _ hm).2.1⟩
  refine ⟨hline, ?_, rfl, rfl, ?_, ?_, ?_, ?_⟩
  rotate_left 4
  · intro hm
    unfold print_stats
    dsimp only
    rw [if_pos hm, if_pos hm]
    exact ⟨rfl, rfl⟩
  · intro hm hr
    rw [hline, hm, if_pos (And.intro hr (abs_nonneg _))]
    exact Option.some_ne_none _
  · intro hl
    by_cases hc : 0 ≤ f.ret ∧ margin ≤ |offset_of K mode f|
    · exact hcount hc.1 hc.2
    · rw [hline, if_neg hc] at hl
      exact absurd rfl hl
  · intro hr hl
    have hm : ¬ margin ≤ |offset_of K mode f| := by
      intro hm
      rw [hline, if_pos (And.intro hr hm)] at hl
      exact Option.some_ne_none _ hl
    rw [fetch_source_ok K mode margin st avail_mode f hr]
    exact ⟨(tally_within margin st _ (not_le.mp hm)).1,
      (tally_within margin st _ (not_le.mp hm)).2.1⟩
  · intro hm hr
    exact hcount hr (by rw [hm]; exact abs_nonneg _)

/-- Margin `0`: the event of offset `10` gets its line and is counted; margin
`500`: it gets no line, `overflows` stays and `curr_unsync` is reset. -/
theorem overflow_line_iff_witness :
    ((0 : Int) = 0) ∧ (0 ≤ (pulse 5 10 1).ret) ∧
    (fetch_source linux_pps 2 0 Stats.init 256 (pulse 5 10 1)).line ≠ none ∧
    ((fetch_source linux_pps 2 0 ⟨7, 4, 1, 900, 0, 0, 3⟩ 256 (pulse 5 10 1)).stats.overflows
        = 4 + 1 ∧
      (fetch_source linux_pps 2 0 ⟨7, 4, 1, 900, 0, 0, 3⟩ 256 (pulse 5 10 1)).stats.curr_unsync
        = 3 + 1) ∧
    (fetch_source linux_pps 2 500 ⟨7, 4, 1, 900, 0, 0, 3⟩ 256 (pulse 5 10 1)).line = none ∧
    ((fetch_source linux_pps 2 500 ⟨7, 4, 1, 900, 0, 0, 3⟩ 256 (pulse 5 10 1)).stats.overflows
        = 4 ∧
      (fetch_source linux_pps 2 500 ⟨7, 4, 1, 900, 0, 0, 3⟩ 256
        (pulse 5 10 1)).stats.curr_unsync = 0) :=
  ⟨rfl, by decide,
    (overflow_line_iff linux_pps 2 0 Stats.init 256 (pulse 5 10 1)).2.1 rfl (by decide),
    (overflow_line_iff linux_pps 2 0 ⟨7, 4, 1, 900, 0, 0, 3⟩ 256
      (pulse 5 10 1)).2.2.2.2.1 (by decide),
    by decide,
    (overflow_line_iff linux_pps 2 500 ⟨7, 4, 1, 900, 0, 0, 3⟩ 256
      (pulse 5 10 1)).2.2.2.2.2.1 (by decide) (by decide)⟩

/-! ### Configuration of the source -/

/-- C10: whenever the requested mode is not contained in the capabilities
(`(avail_mode & mode) != mode`), `find_source` returns a negative value and
does not call `time_pps_setparams`; it returns `0` only if the mode is
contained in the capabilities and both `time_pps_getparams` and
`time_pps_setparams` succeeded; and the parameters it sets, whenever it sets
any, are the current ones with the bits of the requested mode added. -/
theorem find_source_validates (mode : Nat) (env : SourceEnv) :
    (env.getcap_mode &&& mode ≠ mode →
      (find_source mode env).ret < 0 ∧ (find_source mode env).requested = none) ∧
    ((find_source mode env).ret = 0 →
      env.getcap_mode &&& mode = mode ∧ 0 ≤ env.getparams_ret ∧
      0 ≤ env.setparams_ret { env.getparams with mode := env.getparams.mode ||| mode } ∧
      (find_source mode env).requested
        = some { env.getparams with mode := env.getparams.mode ||| mode }) ∧
    (∀ p : pps_params_t, (find_source mode env).requested = some p →
      p = { env.getparams with mode := env.getparams.mode ||| mode }) := by
  refine ⟨?_, ?_, ?_⟩
  · intro h
    simp only [find_source]
    split_ifs <;> simp_all
  · intro h
    simp only [find_source] at h ⊢
    split_ifs at h ⊢ <;> simp_all
  · intro p h
    simp only [find_source] at h
    split_ifs at h <;> simp_all

/-- A source that captures both edges, asked for the clear edge; and a source
that captures the assert edge only. -/
theorem find_source_validates_witness :
    ((1 : Nat) &&& 2 ≠ 2) ∧
    ((find_source 2 ⟨3, 0, 0, 1, 0, ⟨1, 0, ⟨0, 0⟩, ⟨0, 0⟩⟩, fun _ => 0⟩).ret < 0 ∧
      (find_source 2 ⟨3, 0, 0, 1, 0, ⟨1, 0, ⟨0, 0⟩, ⟨0, 0⟩⟩, fun _ => 0⟩).requested = none) ∧
    ((find_source 2 ⟨3, 0, 0, 3, 0, ⟨1, 16, ⟨0, 0⟩, ⟨0, 0⟩⟩, fun _ => 0⟩).ret = 0) ∧
    ((find_source 2 ⟨3, 0, 0, 3, 0, ⟨1, 16, ⟨0, 0⟩, ⟨0, 0⟩⟩, fun _ => 0⟩).requested
      = some ⟨1, 18, ⟨0, 0⟩, ⟨0, 0⟩⟩) :=
  ⟨by decide,
    (find_source_validates 2 ⟨3, 0, 0, 1, 0, ⟨1, 0, ⟨0, 0⟩, ⟨0, 0⟩⟩, fun _ => 0⟩).1
      (by decide),
    by decide,
    ((find_source_validates 2 ⟨3, 0, 0, 3, 0, ⟨1, 16, ⟨0, 0⟩, ⟨0, 0⟩⟩, fun _ => 0⟩).2.1
      (by decide)).2.2.2⟩

/-! ### Coherence of the counters -/

theorem tally_coherent (margin : Int) (st : Stats) (x : Int) (h : coherent st) :
    coherent (tally margin st x).1 := by
  obtain ⟨h0, h1, h2, h3, h4⟩ := h
  have ht := tally_total margin st x
  unfold coherent
  by_cases hm : margin ≤ |x|
  · obtain ⟨ho, hc, hmu, _⟩ := tally_over margin st x hm
    rw [ho, hc, hmu, ht]
    omega
  · obtain ⟨ho, hc, hmu, _⟩ := tally_within margin st x (not_le.mp hm)
    rw [ho, hc, hmu, ht]
    refine ⟨le_refl 0, by omega, by omega, le_trans h3 (le_max_left _ _), ?_⟩
    exact max_le h4 h1

theorem feed_coherent (margin : Int) (xs : List Int) :
    ∀ st : Stats, coherent st →
      coherent (feed margin st xs) ∧
      (feed margin st xs).total = st.total + (xs.length : Int) := by
  induction xs with
  | nil =>
    intro st h
    exact ⟨h, by simp [feed_nil]⟩
  | cons x xs ih =>
    intro st h
    obtain ⟨hc, ht⟩ := ih (tally margin st x).1 (tally_coherent margin st x h)
    rw [feed_cons]
    refine ⟨hc, ?_⟩
    rw [ht, tally_total, List.length_cons]
    push_cast
    ring

/-- Failed fetches drop out of a run. -/
theorem run_filter_ok (K : Timepps) (mode : Nat) (margin : Int) (avail_mode : Nat)
    (fs : List FetchOutcome) :
    ∀ st : Stats, run K mode margin avail_mode st fs
      = run K mode margin avail_mode st (fs.filter FetchOutcome.ok) := by
  induction fs with
  | nil => intro st; rfl
  | cons g gs ih =>
    intro st
    by_cases hg : 0 ≤ g.ret
    · have hok : FetchOutcome.ok g = true := decide_eq_true hg
      rw [List.filter_cons_of_pos hok, run_cons, run_cons, ih]
    · have hok : ¬ FetchOutcome.ok g = true := by
        unfold FetchOutcome.ok
        simp [hg]
      rw [List.filter_cons_of_neg hok, run_cons,
        (fetch_source_fail K mode margin st avail_mode g (not_le.mp hg)).2.1, ih]

/-- C11: from the initial state and after any sequence of fetch outcomes (the
counters being taken on the integers, as they are in C while `total` stays
below the limit of `int`), `0 ≤ curr_unsync ≤ overflows ≤ total` and
`0 ≤ max_unsync ≤ overflows`, and `total` is the number of successful fetches;
so whenever `total > 0` the overflow percentage `100 * overflows / total`
that `print_stats` computes is a number between `0` and `100`. -/
theorem counter_coherence (K : Timepps) (mode : Nat) (margin : Int) (avail_mode : Nat)
    (fs : List FetchOutcome) :
    coherent (run K mode margin avail_mode Stats.init fs) ∧
    (run K mode margin avail_mode Stats.init fs).total
      = ((fs.filter FetchOutcome.ok).length : Int) ∧
    (0 < (run K mode margin avail_mode Stats.init fs).total →
      ddiv (100 * ((run K mode margin avail_mode Stats.init fs).overflows : ℚ))
          ((run K mode margin avail_mode Stats.init fs).total : ℚ)
        = some (100 * ((run K mode margin avail_mode Stats.init fs).overflows : ℚ)
            / ((run K mode margin avail_mode Stats.init fs).total : ℚ)) ∧
      0 ≤ 100 * ((run K mode margin avail_mode Stats.init fs).overflows : ℚ)
            / ((run K mode margin avail_mode Stats.init fs).total : ℚ) ∧
      100 * ((run K mode margin avail_mode Stats.init fs).overflows : ℚ)
            / ((run K mode margin avail_mode Stats.init fs).total : ℚ) ≤ 100) ∧
    (margin ≠ 0 → 0 < (run K mode margin avail_mode Stats.init fs).total →
      (print_stats margin (run K mode margin avail_mode Stats.init fs)).overflows
        = some ((run K mode margin avail_mode Stats.init fs).overflows,
            some (100 * ((run K mode margin avail_mode Stats.init fs).overflows : ℚ)
              / ((run K mode margin avail_mode Stats.init fs).total : ℚ)))) := by
  have hinit : coherent Stats.init := by decide
  have hrun : run K mode margin avail_mode Stats.init fs
      = feed margin Stats.init ((fs.filter FetchOutcome.ok).map (offset_of K mode)) := by
    rw [run_filter_ok K mode margin avail_mode fs Stats.init]
    apply run_events
    intro f hf
    have hok : FetchOutcome.ok f = true := (List.mem_filter.mp hf).2
    unfold FetchOutcome.ok at hok
    exact of_decide_eq_true hok
  obtain ⟨hc, ht⟩ := feed_coherent margin
    ((fs.filter FetchOutcome.ok).map (offset_of K mode)) Stats.init hinit
  rw [← hrun] at hc ht
  have hdiv : 0 < (run K mode margin avail_mode Stats.init fs).total →
      ddiv (100 * ((run K mode margin avail_mode Stats.init fs).overflows : ℚ))
          ((run K mode margin avail_mode Stats.init fs).total : ℚ)
        = some (100 * ((run K mode margin avail_mode Stats.init fs).overflows : ℚ)
            / ((run K mode margin avail_mode Stats.init fs).total : ℚ)) := by
    intro hpos
    have hne : ((run K mode margin avail_mode Stats.init fs).total : ℚ) ≠ 0 := by
      have : (run K mode margin avail_mode Stats.init fs).total ≠ 0 := ne_of_gt hpos
      exact_mod_cast this
    unfold ddiv
    rw [if_neg hne]
  refine ⟨hc, ?_, ?_, ?_⟩
  · rw [ht, List.length_map]
    simp [Stats.init]
  · intro hpos
    obtain ⟨h0, h1, h2, _, _⟩ := hc
    have hposQ : (0 : ℚ) < ((run K mode margin avail_mode Stats.init fs).total : ℚ) := by
      exact_mod_cast hpos
    have hovQ : (0 : ℚ) ≤ ((run K mode margin avail_mode Stats.init fs).overflows : ℚ) := by
      exact_mod_cast le_trans h0 h1
    have hleQ : ((run K mode margin avail_mode Stats.init fs).overflows : ℚ)
        ≤ ((run K mode margin avail_mode Stats.init fs).total : ℚ) := by
      exact_mod_cast h2
    refine ⟨hdiv hpos, ?_, ?_⟩
    · exact div_nonneg (mul_nonneg (by norm_num) hovQ) (le_of_lt hposQ)
    · rw [div_le_iff₀ hposQ]
      linarith
  · intro hm hpos
    unfold print_stats
    dsimp only
    rw [if_pos hm, hdiv hpos]

/-- Five events, one over the margin `500`, with a timeout in between: the
counters are coherent, `total = 5` and the overflow percentage is `20`. -/
theorem counter_coherence_witness :
    ((500 : Int) ≠ 0) ∧
    coherent (run linux_pps 2 500 256 Stats.init
      [pulse 0 10 1, pulse 1 999999980 2, failure ETIMEDOUT, pulse 3 30 3,
        pulse 3 999000000 4, pulse 5 40 5]) ∧
    (run linux_pps 2 500 256 Stats.init
      [pulse 0 10 1, pulse 1 999999980 2, failure ETIMEDOUT, pulse 3 30 3,
        pulse 3 999000000 4, pulse 5 40 5]).total = 5 ∧
    (run linux_pps 2 500 256 Stats.init
      [pulse 0 10 1, pulse 1 999999980 2, failure ETIMEDOUT, pulse 3 30 3,
        pulse 3 999000000 4, pulse 5 40 5]).overflows = 1 ∧
    (print_stats 500 (run linux_pps 2 500 256 Stats.init
      [pulse 0 10 1, pulse 1 999999980 2, failure ETIMEDOUT, pulse 3 30 3,
        pulse 3 999000000 4, pulse 5 40 5])).overflows = some (1, some 20) := by
  have h := counter_coherence linux_pps 2 500 256
    [pulse 0 10 1, pulse 1 999999980 2, failure ETIMEDOUT, pulse 3 30 3,
      pulse 3 999000000 4, pulse 5 40 5]
  have ht : (run linux_pps 2 500 256 Stats.init
      [pulse 0 10 1, pulse 1 999999980 2, failure ETIMEDOUT, pulse 3 30 3,
        pulse 3 999000000 4, pulse 5 40 5]).total = 5 := by decide
  have ho : (run linux_pps 2 500 256 Stats.init
      [pulse 0 10 1, pulse 1 999999980 2, failure ETIMEDOUT, pulse 3 30 3,
        pulse 3 999000000 4, pulse 5 40 5]).overflows = 1 := by decide
  refine ⟨by decide, h.1, ht, ho, ?_⟩
  rw [h.2.2.2 (by decide) (by rw [ht]; decide), ht, ho]
  norm_num

end Ppswatch
